import Mathlib

/-!
# Name.cpp: string helpers of the LOCODE repository

A shallow embedding of `src/Name.cpp`.  A `std::string` is a list of bytes
(8-bit code units).  `Name::dist` narrows the two sizes with
`static_cast<int>`; the model does the same (`toInt32`) and returns `none`
where the narrowed size is negative or `INT_MAX`, the inputs on which the
code throws from the `std::vector` constructor or leaves defined behaviour.
The `int` cells of the distance table are natural numbers: every cell is
bounded by the larger of its two indices (`cell_le_max`), so no addition in
the table wraps (`cell_fits_int`).
The `while` loops of `Name::deaccent` and `Name::split` need not exit for an
arbitrary table or an empty delimiter, so their models take the number of
loop tests they may run (`fuel`) and return `none` when that is used up; the
loop of `Name::denewln` always exits and is a total function.  The maps
`m_diacritic` and `m_escape` are the lists of their pairs in iteration order,
built by the assignments of `Name::setup` in source order.
-/

namespace Name

/-- One 8-bit code unit of a `std::string`. -/
abbrev Byte := Fin 256

/-- A `std::string`, as its sequence of code units. -/
abbrev Str := List Byte

/-- Indexing `str[i]`; `str[str.size()]` is the terminating zero. -/
def charAt (s : Str) (i : Nat) : Byte := s.getD i 0

/-- A counted loop `for (k = lo; k < lo + n; ++k) s = f k s`. -/
def forLoop {σ : Type} (lo : Nat) : Nat → (Nat → σ → σ) → σ → σ
  | 0, _, s => s
  | n + 1, f, s => forLoop (lo + 1) n f (f lo s)

/-! ## The distance table of `Name::dist` -/

/-- The table `std::vector<std::vector<int>>`. -/
abbrev Table := List (List Nat)

/-- The constructor `d(rows, std::vector<int>(cols, 0))`. -/
def mkTable (rows cols : Nat) : Table := List.replicate rows (List.replicate cols 0)

/-- Reading `d[i][j]`. -/
def tget (d : Table) (i j : Nat) : Nat := (d.getD i []).getD j 0

/-- Writing `d[i][j] = v`. -/
def tset (d : Table) (i j v : Nat) : Table := d.set i ((d.getD i []).set j v)

/-- The body of the inner loop of `Name::dist` at cell `(i, j)`. -/
def distStep (str1 str2 : Str) (i j : Nat) (d : Table) : Table :=
  let cost := if charAt str1 (i - 1) = charAt str2 (j - 1) then 0 else 1
  let d := tset d i j
    (min (min (tget d (i - 1) j + 1) (tget d i (j - 1) + 1)) (tget d (i - 1) (j - 1) + cost))
  if 1 < i ∧ 1 < j ∧ charAt str1 (i - 1) = charAt str2 (j - 2)
      ∧ charAt str1 (i - 2) = charAt str2 (j - 1) then
    tset d i j (min (tget d i j) (tget d (i - 2) (j - 2) + cost))
  else d

/-- The conversion `static_cast<int>(n)` of a `size_t`: `n` modulo `2^32`,
read as a signed 32-bit integer. -/
def toInt32 (n : Nat) : Int :=
  if n % 4294967296 < 2147483648 then Int.ofNat (n % 4294967296)
  else Int.ofNat (n % 4294967296) - 4294967296

/-- The table of `Name::dist` after all three loops have run, for the
narrowed sizes `N1` and `N2`. -/
def distTable (str1 str2 : Str) (N1 N2 : Nat) : Table :=
  let d := mkTable (N1 + 1) (N2 + 1)
  let d := forLoop 0 (N1 + 1) (fun i d => tset d i 0 i) d
  let d := forLoop 0 (N2 + 1) (fun j d => tset d 0 j j) d
  forLoop 1 N1 (fun i d => forLoop 1 N2 (fun j d => distStep str1 str2 i j d) d) d

/-- `Name::dist(str1, str2)`: with `N1` and `N2` the sizes narrowed to `int`,
the last cell `d[N1][N2]` of the table.  The result is `none` where the code
returns nothing defined: a negative `N1 + 1` or `N2 + 1` makes the `std::vector`
constructor throw, `N1 = -1` or `N2 = -1` makes the loops index an empty
vector, and `N1 + 1` or `N2 + 1` overflows at `INT_MAX`.  Storage for the
`(N1 + 1) * (N2 + 1)` cells is taken to be available. -/
def dist (str1 str2 : Str) : Option Nat :=
  let N1 := toInt32 str1.length
  let N2 := toInt32 str2.length
  if 0 ≤ N1 ∧ N1 < 2147483647 ∧ 0 ≤ N2 ∧ N2 < 2147483647 then
    some (tget (distTable str1 str2 N1.toNat N2.toNat) N1.toNat N2.toNat)
  else none

/-- The recurrence that the loops of `Name::dist` evaluate, as a function of
the cell: the value stored in `d[i][j]`. -/
def cell (a b : Str) (i j : Nat) : Nat :=
  if _hi : i = 0 then j
  else if _hj : j = 0 then i
  else
    let cost := if charAt a (i - 1) = charAt b (j - 1) then 0 else 1
    let m := min (min (cell a b (i - 1) j + 1) (cell a b i (j - 1) + 1))
      (cell a b (i - 1) (j - 1) + cost)
    if 1 < i ∧ 1 < j ∧ charAt a (i - 1) = charAt b (j - 2)
        ∧ charAt a (i - 2) = charAt b (j - 1) then
      min m (cell a b (i - 2) (j - 2) + cost)
    else m
termination_by i + j
decreasing_by all_goals omega

/-- The restricted (optimal string alignment) table as the specification
words it: deletion, insertion, substitution and adjacent transposition each
cost 1, so the transposition branch is priced `d[i-2][j-2] + 1`. -/
def osaCell (a b : Str) (i j : Nat) : Nat :=
  if _hi : i = 0 then j
  else if _hj : j = 0 then i
  else
    let cost := if charAt a (i - 1) = charAt b (j - 1) then 0 else 1
    let m := min (min (osaCell a b (i - 1) j + 1) (osaCell a b i (j - 1) + 1))
      (osaCell a b (i - 1) (j - 1) + cost)
    if 1 < i ∧ 1 < j ∧ charAt a (i - 1) = charAt b (j - 2)
        ∧ charAt a (i - 2) = charAt b (j - 1) then
      min m (osaCell a b (i - 2) (j - 2) + 1)
    else m
termination_by i + j
decreasing_by all_goals omega

/-- The restricted Damerau-Levenshtein distance with unit costs. -/
def osaDist (a b : Str) : Nat := osaCell a b a.length b.length

/-! ## The diacritic table and `Name::deaccent` -/

/-- The member `std::string::find(key, pos)` on the part of the string that
starts at position `p`: the first position at or after `p` where `key`
begins, or `none` for `npos`. -/
def findFrom (key : Str) : Str → Nat → Option Nat
  | [], p => if key.isPrefixOf [] then some p else none
  | c :: cs, p => if key.isPrefixOf (c :: cs) then some p else findFrom key cs (p + 1)

/-- The call `str.find(key, pos)`; `none` is `npos`. -/
def find (str key : Str) (pos : Nat) : Option Nat :=
  if pos ≤ str.length then findFrom key (str.drop pos) pos else none

/-- The call `str.replace(pos, n, with)`. -/
def replaceAt (str : Str) (pos n : Nat) (w : Str) : Str :=
  str.take pos ++ w ++ str.drop (pos + n)

/-- The inner loop of `Name::deaccent` for one table pair,
`while ((pos = str.find(key, pos)) != npos) str.replace(pos, key.size(), val)`,
run for at most `fuel` evaluations of the loop condition; `none` when the
fuel runs out before the loop exits. -/
def deaccentLoop : Nat → Str → Str → Str → Nat → Option Str
  | 0, _, _, _, _ => none
  | fuel + 1, key, val, str, pos =>
    match find str key pos with
    | none => some str
    | some p => deaccentLoop fuel key val (replaceAt str p key.length val) p

/-- The outer loop of `Name::deaccent` over the pairs of a table, each inner
loop starting at `pos = 0`. -/
def deaccentPairs (fuel : Nat) : List (Str × Str) → Str → Option Str
  | [], str => some str
  | (key, val) :: rest, str =>
    match deaccentLoop fuel key val str 0 with
    | none => none
    | some str2 => deaccentPairs fuel rest str2

/-- The order of `std::map<std::string, std::string>`: `std::less` on
strings, lexicographic on the code units compared as unsigned bytes. -/
def strLt : Str → Str → Bool
  | _, [] => false
  | [], _ :: _ => true
  | x :: xs, y :: ys => if x < y then true else if y < x then false else strLt xs ys

/-- The assignment `m[key] = val` on a `std::map`, kept as the list of its
pairs in iteration (key) order. -/
def mapSet : List (Str × Str) → Str → Str → List (Str × Str)
  | [], key, val => [(key, val)]
  | (k, v) :: rest, key, val =>
    if strLt key k then (key, val) :: (k, v) :: rest
    else if strLt k key then (k, v) :: mapSet rest key val
    else (key, val) :: rest

/-- The assignments `m_diacritic[key] = val` of `Name::setup`, in source
order, keys as the bytes of the source file (UTF-8). -/
def diacriticAssignments : List (Str × Str) := [
  ([0xc2, 0xa0], [0x20]), -- line 406: NO-BREAK SPACE =>  
  ([0xc2, 0xb0], [0x3a]), -- line 412: ° => :
  ([0xe2, 0x80, 0xb2], [0x3a]), -- line 413: ′ => :
  ([0xe2, 0x80, 0xb3], [0x3a]), -- line 414: ″ => :
  ([0xc3, 0x86], [0x41]), -- line 417: Æ => A
  ([0xc3, 0xa6], [0x61]), -- line 418: æ => a
  ([0xc5, 0x92], [0x4f]), -- line 420: Œ => O
  ([0xc5, 0x93], [0x6f]), -- line 421: œ => o
  ([0xc3, 0x9f], [0x73, 0x73]), -- line 423: ß => ss
  ([0xc3, 0x9e], [0x54, 0x68]), -- line 425: Þ => Th
  ([0xc3, 0xbe], [0x74, 0x68]), -- line 426: þ => th
  ([0xc4, 0x80], [0x41]), -- line 428: Ā => A
  ([0xc3, 0x81], [0x41]), -- line 429: Á => A
  ([0xc3, 0x80], [0x41]), -- line 430: À => A
  ([0xc3, 0x83], [0x41]), -- line 431: Ã => A
  ([0xc3, 0x82], [0x41]), -- line 432: Â => A
  ([0xc3, 0x84], [0x41]), -- line 433: Ä => A
  ([0xc3, 0x85], [0x41]), -- line 434: Å => A
  ([0xc4, 0x82], [0x41]), -- line 435: Ă => A
  ([0xc4, 0x84], [0x41]), -- line 436: Ą => A
  ([0xc4, 0x8c], [0x43]), -- line 438: Č => C
  ([0xc3, 0x87], [0x43]), -- line 439: Ç => C
  ([0xe1, 0xb8, 0x90], [0x44]), -- line 441: Ḑ => D
  ([0xc4, 0x90], [0x44]), -- line 442: Đ => D
  ([0xc3, 0x89], [0x45]), -- line 444: É => E
  ([0xc3, 0x88], [0x45]), -- line 445: È => E
  ([0xc4, 0xa6], [0x48]), -- line 447: Ħ => H
  ([0xe1, 0xb8, 0xa8], [0x48]), -- line 448: Ḩ => H
  ([0xc3, 0x8d], [0x49]), -- line 450: Í => I
  ([0xc3, 0x8c], [0x49]), -- line 451: Ì => I
  ([0xc4, 0xb0], [0x49]), -- line 452: İ => I
  ([0xc3, 0x8f], [0x49]), -- line 453: Ï => I
  ([0xc4, 0xaa], [0x49]), -- line 454: Ī => I
  ([0xc3, 0x8e], [0x49]), -- line 455: Î => I
  ([0xc3, 0x91], [0x4e]), -- line 457: Ñ => N
  ([0xc3, 0x92], [0x4f]), -- line 459: Ò => O
  ([0xc3, 0x93], [0x4f]), -- line 460: Ó => O
  ([0xc3, 0x94], [0x4f]), -- line 461: Ô => O
  ([0xc3, 0x95], [0x4f]), -- line 462: Õ => O
  ([0xc3, 0x96], [0x4f]), -- line 463: Ö => O
  ([0xc3, 0x98], [0x4f]), -- line 464: Ø => O
  ([0xc4, 0xb6], [0x4b]), -- line 466: Ķ => K
  ([0xc5, 0x81], [0x4c]), -- line 468: Ł => L
  ([0xc5, 0xa0], [0x53]), -- line 470: Š => S
  ([0xc5, 0x9e], [0x53]), -- line 471: Ş => S
  ([0xc5, 0x9a], [0x53]), -- line 472: Ś => S
  ([0xc8, 0x98], [0x53]), -- line 473: Ș => S
  ([0xc5, 0xa2], [0x54]), -- line 475: Ţ => T
  ([0xc5, 0xa4], [0x54]), -- line 476: Ť => T
  ([0xc5, 0xa6], [0x54]), -- line 477: Ŧ => T
  ([0xc6, 0xac], [0x54]), -- line 478: Ƭ => T
  ([0xc6, 0xae], [0x54]), -- line 479: Ʈ => T
  ([0xe1, 0xb9, 0xac], [0x54]), -- line 480: Ṭ => T
  ([0xc3, 0x9a], [0x55]), -- line 482: Ú => U
  ([0xc3, 0x99], [0x55]), -- line 483: Ù => U
  ([0xc3, 0x9b], [0x55]), -- line 484: Û => U
  ([0xc3, 0x9c], [0x55]), -- line 485: Ü => U
  ([0xc5, 0xac], [0x55]), -- line 486: Ŭ => U
  ([0xc5, 0xa8], [0x55]), -- line 487: Ũ => U
  ([0xc5, 0xae], [0x55]), -- line 488: Ů => U
  ([0xc5, 0xaa], [0x55]), -- line 489: Ū => U
  ([0xe1, 0xbb, 0xb2], [0x59]), -- line 492: Ỳ => Y
  ([0xc5, 0xb8], [0x59]), -- line 493: Ÿ => Y
  ([0xc3, 0x9d], [0x59]), -- line 494: Ý => Y
  ([0xc5, 0xbb], [0x5a]), -- line 497: Ż => Z
  ([0x5a, 0xcc, 0xa7], [0x5a]), -- line 498: Z̧ => Z
  ([0xc5, 0xbd], [0x5a]), -- line 499: Ž => Z
  ([0xc6, 0xb5], [0x5a]), -- line 500: Ƶ => Z
  ([0xc5, 0xbd], [0x5a]), -- line 501: Ž => Z
  ([0xc5, 0xb9], [0x5a]), -- line 502: Ź => Z
  ([0xc8, 0xa4], [0x5a]), -- line 503: Ȥ => Z
  ([0xc3, 0xa0], [0x61]), -- line 509: à => a
  ([0xc3, 0xa1], [0x61]), -- line 510: á => a
  ([0xc3, 0xa2], [0x61]), -- line 511: â => a
  ([0xc3, 0xa3], [0x61]), -- line 512: ã => a
  ([0xc3, 0xa4], [0x61]), -- line 513: ä => a
  ([0xc3, 0xa5], [0x61]), -- line 514: å => a
  ([0xe1, 0xba, 0xa3], [0x61]), -- line 515: ả => a
  ([0xe1, 0xba, 0xad], [0x61]), -- line 516: ậ => a
  ([0xe1, 0xba, 0xb1], [0x61]), -- line 517: ằ => a
  ([0xe1, 0xba, 0xaf], [0x61]), -- line 518: ắ => a
  ([0xc4, 0x81], [0x61]), -- line 519: ā => a
  ([0xc4, 0x85], [0x61]), -- line 520: ą => a
  ([0xc4, 0x83], [0x61]), -- line 521: ă => a
  ([0xe1, 0xba, 0xa7], [0x61]), -- line 522: ầ => a
  ([0xe1, 0xba, 0xb5], [0x61]), -- line 523: ẵ => a
  ([0xe1, 0xba, 0xa1], [0x61]), -- line 524: ạ => a
  ([0xc3, 0xa7], [0x63]), -- line 526: ç => c
  ([0xc4, 0x87], [0x63]), -- line 527: ć => c
  ([0xc4, 0x8d], [0x63]), -- line 528: č => c
  ([0xc4, 0x8b], [0x63]), -- line 529: ċ => c
  ([0xc4, 0x89], [0x63]), -- line 530: ĉ => c
  ([0xc6, 0x88], [0x63]), -- line 531: ƈ => c
  ([0xc4, 0x8f], [0x64]), -- line 533: ď => d
  ([0xe1, 0xb8, 0x91], [0x64]), -- line 534: ḑ => d
  ([0xc4, 0x91], [0x64]), -- line 535: đ => d
  ([0xc3, 0xa9], [0x65]), -- line 537: é => e
  ([0xc3, 0xa8], [0x65]), -- line 538: è => e
  ([0xc4, 0x97], [0x65]), -- line 539: ė => e
  ([0xc3, 0xab], [0x65]), -- line 540: ë => e
  ([0xe1, 0xba, 0xbf], [0x65]), -- line 541: ế => e
  ([0xe1, 0xbb, 0x81], [0x65]), -- line 542: ề => e
  ([0xc4, 0x9b], [0x65]), -- line 543: ě => e
  ([0xc3, 0xaa], [0x65]), -- line 544: ê => e
  ([0xe1, 0xbb, 0x87], [0x65]), -- line 545: ệ => e
  ([0xc4, 0x99], [0x65]), -- line 546: ę => e
  ([0xc4, 0x93], [0x65]), -- line 547: ē => e
  ([0xc9, 0x99], [0x65]), -- line 548: ə => e
  ([0xc4, 0xa1], [0x67]), -- line 550: ġ => g
  ([0xc4, 0x9f], [0x67]), -- line 551: ğ => g
  ([0xc4, 0x9d], [0x67]), -- line 552: ĝ => g
  ([0xc4, 0xa3], [0x67]), -- line 553: ģ => g
  ([0xe1, 0xb8, 0xa9], [0x68]), -- line 555: ḩ => h
  ([0xe1, 0xb8, 0xa5], [0x68]), -- line 556: ḥ => h
  ([0xc4, 0xa7], [0x68]), -- line 557: ħ => h
  ([0xc4, 0xa5], [0x68]), -- line 558: ĥ => h
  ([0xc3, 0xad], [0x69]), -- line 560: í => i
  ([0xc3, 0xac], [0x69]), -- line 561: ì => i
  ([0xc4, 0xa9], [0x69]), -- line 562: ĩ => i
  ([0xc3, 0xae], [0x69]), -- line 563: î => i
  ([0xc4, 0xad], [0x69]), -- line 564: ĭ => i
  ([0xc4, 0xab], [0x69]), -- line 565: ī => i
  ([0xc4, 0xb1], [0x69]), -- line 566: ı => i
  ([0xc3, 0xaf], [0x69]), -- line 567: ï => i
  ([0xe1, 0xbb, 0x8b], [0x69]), -- line 568: ị => i
  ([0xc5, 0x82], [0x6c]), -- line 570: ł => l
  ([0xc3, 0xb1], [0x6e]), -- line 572: ñ => n
  ([0xc5, 0x88], [0x6e]), -- line 573: ň => n
  ([0xc5, 0x84], [0x6e]), -- line 574: ń => n
  ([0xc5, 0x86], [0x6e]), -- line 575: ņ => n
  ([0xe1, 0xbb, 0x93], [0x6f]), -- line 579: ồ => o
  ([0xc3, 0xb3], [0x6f]), -- line 580: ó => o
  ([0xc3, 0xb2], [0x6f]), -- line 581: ò => o
  ([0xc3, 0xb6], [0x6f]), -- line 582: ö => o
  ([0xc7, 0x92], [0x6f]), -- line 583: ǒ => o
  ([0xc3, 0xb4], [0x6f]), -- line 584: ô => o
  ([0xc3, 0xb0], [0x6f]), -- line 585: ð => o
  ([0xc3, 0xb5], [0x6f]), -- line 586: õ => o
  ([0xc5, 0x91], [0x6f]), -- line 587: ő => o
  ([0xe1, 0xbb, 0x8d], [0x6f]), -- line 588: ọ => o
  ([0xc6, 0xa1], [0x6f]), -- line 589: ơ => o
  ([0xc5, 0x8d], [0x6f]), -- line 590: ō => o
  ([0xe1, 0xbb, 0x99], [0x6f]), -- line 591: ộ => o
  ([0xe1, 0xbb, 0x9b], [0x6f]), -- line 592: ớ => o
  ([0xc3, 0xb8], [0x6f]), -- line 593: ø => o
  ([0xc7, 0xbf], [0x6f]), -- line 594: ǿ => o
  ([0xe1, 0xb9, 0x9f], [0x72]), -- line 596: ṟ => r
  ([0xe1, 0xb9, 0x99], [0x72]), -- line 597: ṙ => r
  ([0xc5, 0x99], [0x72]), -- line 598: ř => r
  ([0xc5, 0xa1], [0x73]), -- line 600: š => s
  ([0xc5, 0x9f], [0x73]), -- line 601: ş => s
  ([0xc5, 0x9b], [0x73]), -- line 602: ś => s
  ([0xc5, 0x9d], [0x73]), -- line 603: ŝ => s
  ([0xc8, 0x99], [0x73]), -- line 604: ș => s
  ([0xc5, 0xa3], [0x74]), -- line 606: ţ => t
  ([0xc8, 0x9b], [0x74]), -- line 607: ț => t
  ([0xe1, 0xb9, 0xad], [0x74]), -- line 608: ṭ => t
  ([0xc5, 0xaf], [0x75]), -- line 610: ů => u
  ([0xe1, 0xbb, 0xab], [0x75]), -- line 611: ừ => u
  ([0xc3, 0xba], [0x75]), -- line 612: ú => u
  ([0xc3, 0xb9], [0x75]), -- line 613: ù => u
  ([0xc5, 0xab], [0x75]), -- line 614: ū => u
  ([0xc3, 0xbc], [0x75]), -- line 615: ü => u
  ([0xc5, 0xad], [0x75]), -- line 616: ŭ => u
  ([0xc5, 0xa9], [0x75]), -- line 617: ũ => u
  ([0xc3, 0xbb], [0x75]), -- line 618: û => u
  ([0xc6, 0xb0], [0x75]), -- line 619: ư => u
  ([0xc3, 0xbd], [0x79]), -- line 621: ý => y
  ([0xe1, 0xbb, 0xb3], [0x79]), -- line 622: ỳ => y
  ([0xc3, 0xbf], [0x79]), -- line 623: ÿ => y
  ([0xc5, 0xbc], [0x7a]), -- line 625: ż => z
  ([0xe1, 0xba, 0x95], [0x7a]), -- line 626: ẕ => z
  ([0xc5, 0xbe], [0x7a]), -- line 627: ž => z
  ([0xc5, 0xba], [0x7a]), -- line 628: ź => z
  ([0xc5, 0xbc], [0x7a]), -- line 629: ż => z
  ([0x7a, 0xcc, 0xa7], [0x7a]), -- line 630: z̧ => z
  ([0xc6, 0xb6], [0x7a]) -- line 631: ƶ => z
]

/-- The map `Name::m_diacritic` after `Name::setup()`, in iteration order. -/
def m_diacritic : List (Str × Str) :=
  diacriticAssignments.foldl (fun m kv => mapSet m kv.1 kv.2) []

/-- The pairs of `Name::m_diacritic` written out in iteration order (equal to
`m_diacritic`, see `m_diacritic_eq`). -/
def diacriticOrdered : List (Str × Str) := [
  ([0x5a, 0xcc, 0xa7], [0x5a]),
  ([0x7a, 0xcc, 0xa7], [0x7a]),
  ([0xc2, 0xa0], [0x20]),
  ([0xc2, 0xb0], [0x3a]),
  ([0xc3, 0x80], [0x41]),
  ([0xc3, 0x81], [0x41]),
  ([0xc3, 0x82], [0x41]),
  ([0xc3, 0x83], [0x41]),
  ([0xc3, 0x84], [0x41]),
  ([0xc3, 0x85], [0x41]),
  ([0xc3, 0x86], [0x41]),
  ([0xc3, 0x87], [0x43]),
  ([0xc3, 0x88], [0x45]),
  ([0xc3, 0x89], [0x45]),
  ([0xc3, 0x8c], [0x49]),
  ([0xc3, 0x8d], [0x49]),
  ([0xc3, 0x8e], [0x49]),
  ([0xc3, 0x8f], [0x49]),
  ([0xc3, 0x91], [0x4e]),
  ([0xc3, 0x92], [0x4f]),
  ([0xc3, 0x93], [0x4f]),
  ([0xc3, 0x94], [0x4f]),
  ([0xc3, 0x95], [0x4f]),
  ([0xc3, 0x96], [0x4f]),
  ([0xc3, 0x98], [0x4f]),
  ([0xc3, 0x99], [0x55]),
  ([0xc3, 0x9a], [0x55]),
  ([0xc3, 0x9b], [0x55]),
  ([0xc3, 0x9c], [0x55]),
  ([0xc3, 0x9d], [0x59]),
  ([0xc3, 0x9e], [0x54, 0x68]),
  ([0xc3, 0x9f], [0x73, 0x73]),
  ([0xc3, 0xa0], [0x61]),
  ([0xc3, 0xa1], [0x61]),
  ([0xc3, 0xa2], [0x61]),
  ([0xc3, 0xa3], [0x61]),
  ([0xc3, 0xa4], [0x61]),
  ([0xc3, 0xa5], [0x61]),
  ([0xc3, 0xa6], [0x61]),
  ([0xc3, 0xa7], [0x63]),
  ([0xc3, 0xa8], [0x65]),
  ([0xc3, 0xa9], [0x65]),
  ([0xc3, 0xaa], [0x65]),
  ([0xc3, 0xab], [0x65]),
  ([0xc3, 0xac], [0x69]),
  ([0xc3, 0xad], [0x69]),
  ([0xc3, 0xae], [0x69]),
  ([0xc3, 0xaf], [0x69]),
  ([0xc3, 0xb0], [0x6f]),
  ([0xc3, 0xb1], [0x6e]),
  ([0xc3, 0xb2], [0x6f]),
  ([0xc3, 0xb3], [0x6f]),
  ([0xc3, 0xb4], [0x6f]),
  ([0xc3, 0xb5], [0x6f]),
  ([0xc3, 0xb6], [0x6f]),
  ([0xc3, 0xb8], [0x6f]),
  ([0xc3, 0xb9], [0x75]),
  ([0xc3, 0xba], [0x75]),
  ([0xc3, 0xbb], [0x75]),
  ([0xc3, 0xbc], [0x75]),
  ([0xc3, 0xbd], [0x79]),
  ([0xc3, 0xbe], [0x74, 0x68]),
  ([0xc3, 0xbf], [0x79]),
  ([0xc4, 0x80], [0x41]),
  ([0xc4, 0x81], [0x61]),
  ([0xc4, 0x82], [0x41]),
  ([0xc4, 0x83], [0x61]),
  ([0xc4, 0x84], [0x41]),
  ([0xc4, 0x85], [0x61]),
  ([0xc4, 0x87], [0x63]),
  ([0xc4, 0x89], [0x63]),
  ([0xc4, 0x8b], [0x63]),
  ([0xc4, 0x8c], [0x43]),
  ([0xc4, 0x8d], [0x63]),
  ([0xc4, 0x8f], [0x64]),
  ([0xc4, 0x90], [0x44]),
  ([0xc4, 0x91], [0x64]),
  ([0xc4, 0x93], [0x65]),
  ([0xc4, 0x97], [0x65]),
  ([0xc4, 0x99], [0x65]),
  ([0xc4, 0x9b], [0x65]),
  ([0xc4, 0x9d], [0x67]),
  ([0xc4, 0x9f], [0x67]),
  ([0xc4, 0xa1], [0x67]),
  ([0xc4, 0xa3], [0x67]),
  ([0xc4, 0xa5], [0x68]),
  ([0xc4, 0xa6], [0x48]),
  ([0xc4, 0xa7], [0x68]),
  ([0xc4, 0xa9], [0x69]),
  ([0xc4, 0xaa], [0x49]),
  ([0xc4, 0xab], [0x69]),
  ([0xc4, 0xad], [0x69]),
  ([0xc4, 0xb0], [0x49]),
  ([0xc4, 0xb1], [0x69]),
  ([0xc4, 0xb6], [0x4b]),
  ([0xc5, 0x81], [0x4c]),
  ([0xc5, 0x82], [0x6c]),
  ([0xc5, 0x84], [0x6e]),
  ([0xc5, 0x86], [0x6e]),
  ([0xc5, 0x88], [0x6e]),
  ([0xc5, 0x8d], [0x6f]),
  ([0xc5, 0x91], [0x6f]),
  ([0xc5, 0x92], [0x4f]),
  ([0xc5, 0x93], [0x6f]),
  ([0xc5, 0x99], [0x72]),
  ([0xc5, 0x9a], [0x53]),
  ([0xc5, 0x9b], [0x73]),
  ([0xc5, 0x9d], [0x73]),
  ([0xc5, 0x9e], [0x53]),
  ([0xc5, 0x9f], [0x73]),
  ([0xc5, 0xa0], [0x53]),
  ([0xc5, 0xa1], [0x73]),
  ([0xc5, 0xa2], [0x54]),
  ([0xc5, 0xa3], [0x74]),
  ([0xc5, 0xa4], [0x54]),
  ([0xc5, 0xa6], [0x54]),
  ([0xc5, 0xa8], [0x55]),
  ([0xc5, 0xa9], [0x75]),
  ([0xc5, 0xaa], [0x55]),
  ([0xc5, 0xab], [0x75]),
  ([0xc5, 0xac], [0x55]),
  ([0xc5, 0xad], [0x75]),
  ([0xc5, 0xae], [0x55]),
  ([0xc5, 0xaf], [0x75]),
  ([0xc5, 0xb8], [0x59]),
  ([0xc5, 0xb9], [0x5a]),
  ([0xc5, 0xba], [0x7a]),
  ([0xc5, 0xbb], [0x5a]),
  ([0xc5, 0xbc], [0x7a]),
  ([0xc5, 0xbd], [0x5a]),
  ([0xc5, 0xbe], [0x7a]),
  ([0xc6, 0x88], [0x63]),
  ([0xc6, 0xa1], [0x6f]),
  ([0xc6, 0xac], [0x54]),
  ([0xc6, 0xae], [0x54]),
  ([0xc6, 0xb0], [0x75]),
  ([0xc6, 0xb5], [0x5a]),
  ([0xc6, 0xb6], [0x7a]),
  ([0xc7, 0x92], [0x6f]),
  ([0xc7, 0xbf], [0x6f]),
  ([0xc8, 0x98], [0x53]),
  ([0xc8, 0x99], [0x73]),
  ([0xc8, 0x9b], [0x74]),
  ([0xc8, 0xa4], [0x5a]),
  ([0xc9, 0x99], [0x65]),
  ([0xe1, 0xb8, 0x90], [0x44]),
  ([0xe1, 0xb8, 0x91], [0x64]),
  ([0xe1, 0xb8, 0xa5], [0x68]),
  ([0xe1, 0xb8, 0xa8], [0x48]),
  ([0xe1, 0xb8, 0xa9], [0x68]),
  ([0xe1, 0xb9, 0x99], [0x72]),
  ([0xe1, 0xb9, 0x9f], [0x72]),
  ([0xe1, 0xb9, 0xac], [0x54]),
  ([0xe1, 0xb9, 0xad], [0x74]),
  ([0xe1, 0xba, 0x95], [0x7a]),
  ([0xe1, 0xba, 0xa1], [0x61]),
  ([0xe1, 0xba, 0xa3], [0x61]),
  ([0xe1, 0xba, 0xa7], [0x61]),
  ([0xe1, 0xba, 0xad], [0x61]),
  ([0xe1, 0xba, 0xaf], [0x61]),
  ([0xe1, 0xba, 0xb1], [0x61]),
  ([0xe1, 0xba, 0xb5], [0x61]),
  ([0xe1, 0xba, 0xbf], [0x65]),
  ([0xe1, 0xbb, 0x81], [0x65]),
  ([0xe1, 0xbb, 0x87], [0x65]),
  ([0xe1, 0xbb, 0x8b], [0x69]),
  ([0xe1, 0xbb, 0x8d], [0x6f]),
  ([0xe1, 0xbb, 0x93], [0x6f]),
  ([0xe1, 0xbb, 0x99], [0x6f]),
  ([0xe1, 0xbb, 0x9b], [0x6f]),
  ([0xe1, 0xbb, 0xab], [0x75]),
  ([0xe1, 0xbb, 0xb2], [0x59]),
  ([0xe1, 0xbb, 0xb3], [0x79]),
  ([0xe2, 0x80, 0xb2], [0x3a]),
  ([0xe2, 0x80, 0xb3], [0x3a])
]

/-- `Name::deaccent(str)` after `Name::setup()`, each inner loop given `fuel`
evaluations of its condition. -/
def deaccent (fuel : Nat) (str : Str) : Option Str :=
  deaccentPairs fuel m_diacritic str

/-- `Name::isroman(str)`: every code unit lies in `[32, 126]`. -/
def isroman : Str → Bool
  | [] => true
  | c :: cs => if !(32 ≤ c.val && c.val ≤ 126) then false else isroman cs

/-! ## The escape table and `Name::escape` -/

/-- The lookup `m.find(key)` on a `std::map`: the value of the pair whose key
is equivalent to `key` under the map's order, `none` for `end()`. -/
def mapFind : List (Str × Str) → Str → Option Str
  | [], _ => none
  | (k, v) :: rest, key =>
    if !strLt key k && !strLt k key then some v else mapFind rest key

/-- The assignments `m_escape[key] = val` of `Name::setup`, in source order. -/
def escapeAssignments : List (Str × Str) := [
  ([0x2e], [0x5c, 0x2e]), -- line 374: full stop
  ([0x5c], [0x5c, 0x5c]), -- line 375: backslash
  ([0x2b], [0x5c, 0x2b]), -- line 376: plus
  ([0x2a], [0x5c, 0x2a]), -- line 377: asterisk
  ([0x3f], [0x5c, 0x3f]), -- line 378: question mark
  ([0x5b], [0x5c, 0x5b]), -- line 379: left square bracket
  ([0x5e], [0x5c, 0x5e]), -- line 380: circumflex
  ([0x5d], [0x5c, 0x5d]), -- line 381: right square bracket
  ([0x24], [0x5c, 0x24]), -- line 382: dollar
  ([0x28], [0x5c, 0x28]), -- line 383: left parenthesis
  ([0x29], [0x5c, 0x29]), -- line 384: right parenthesis
  ([0x7b], [0x5c, 0x7b]), -- line 385: left curly bracket
  ([0x7d], [0x5c, 0x7d]), -- line 386: right curly bracket
  ([0x3d], [0x5c, 0x3d]), -- line 387: equals
  ([0x21], [0x5c, 0x21]), -- line 388: exclamation mark
  ([0x3c], [0x5c, 0x3c]), -- line 389: less than
  ([0x3e], [0x5c, 0x3e]), -- line 390: greater than
  ([0x7c], [0x5c, 0x7c]), -- line 391: vertical bar
  ([0x3a], [0x5c, 0x3a]), -- line 392: colon
  ([0x2d], [0x5c, 0x2d])  -- line 393: hyphen
]

/-- The map `Name::m_escape` after `Name::setup()`, in iteration order. -/
def m_escape : List (Str × Str) :=
  escapeAssignments.foldl (fun m kv => mapSet m kv.1 kv.2) []

/-- `Name::escape(str)` after `Name::setup()`: for each character `c` the
one-character string `sym` is looked up and `retVal` grows by the value found,
or by `sym`. -/
def escape (str : Str) : Str :=
  str.foldl (fun retVal c =>
    retVal ++ (match mapFind m_escape [c] with
      | some v => v
      | none => [c])) []

/-- The 20 pattern-special characters that the specification lists:
`. \ + * ? [ ] ^ $ ( )`, the two curly brackets, and `= ! < > | : -`. -/
def patternSpecial : List Byte :=
  [0x2e, 0x5c, 0x2b, 0x2a, 0x3f, 0x5b, 0x5d, 0x5e, 0x24, 0x28, 0x29, 0x7b, 0x7d,
    0x3d, 0x21, 0x3c, 0x3e, 0x7c, 0x3a, 0x2d]

/-- The escaped form of one character as the specification words it: a
backslash followed by the character when it is pattern-special, the
character itself otherwise. -/
def escapeCharSpec (c : Byte) : Str :=
  if c ∈ patternSpecial then [0x5c, c] else [c]

/-- The specification of `escape`: the escaped forms of the characters,
concatenated in order. -/
def escapeSpec (s : Str) : Str := (s.map escapeCharSpec).flatten

/-! ## `Name::denewln` -/

/-- The loop of `Name::denewln` from index `i` on:
`for (; i < str.size(); ++i)` with `str.insert(i++, 1, backslash)` at an
apostrophe and `str.erase(i, 1)` at a newline or carriage return. -/
def denewlnLoop (str : Str) (i : Nat) : Str :=
  if _h : i < str.length then
    if charAt str i = 0x27 then
      denewlnLoop (str.take i ++ 0x5c :: str.drop i) (i + 1 + 1)
    else if charAt str i = 0x0a ∨ charAt str i = 0x0d then
      denewlnLoop (str.take i ++ str.drop (i + 1)) (i + 1)
    else denewlnLoop str (i + 1)
  else str
termination_by str.length - i
decreasing_by
  all_goals try simp only [List.length_append, List.length_take, List.length_cons,
    List.length_drop]
  all_goals omega

/-- `Name::denewln(str)`. -/
def denewln (str : Str) : Str := denewlnLoop str 0

/-! ## `Name::split` and `Name::concat` -/

/-- The call `str.substr(pos, n)`. -/
def substr (str : Str) (pos n : Nat) : Str := (str.drop pos).take n

/-- The loop of `Name::split` (the `std::string` overload),
`while ((pos_end = str.find(delim, pos_start)) != npos)`, followed by the
last `push_back`, for at most `fuel` evaluations of the loop condition;
`none` when the fuel runs out before the loop exits. -/
def splitLoop : Nat → Str → Str → Nat → List Str → Option (List Str)
  | 0, _, _, _, _ => none
  | fuel + 1, str, delim, pos_start, retVal =>
    match find str delim pos_start with
    | none => some (retVal ++ [str.drop pos_start])
    | some pos_end =>
      splitLoop fuel str delim (pos_end + delim.length)
        (retVal ++ [substr str pos_start (pos_end - pos_start)])

/-- `Name::split(str, delim)` for a `std::string` delimiter. -/
def split (fuel : Nat) (str delim : Str) : Option (List Str) :=
  splitLoop fuel str delim 0 []

/-- One pair applied as the specification words it: scanning left to right,
every non-overlapping occurrence of `key` is replaced by `val` and the scan
resumes right after the replacement; `skip` counts the bytes of a replaced
occurrence still to pass over. -/
def scanReplace (key val : Str) : Nat → Str → Str
  | _, [] => []
  | skip + 1, _ :: cs => scanReplace key val skip cs
  | 0, c :: cs =>
    if key.isPrefixOf (c :: cs) then val ++ scanReplace key val (key.length - 1) cs
    else c :: scanReplace key val 0 cs

/-- The specification of `deaccent` on a table: the pairs applied one after
another in table order. -/
def scanPairs : List (Str × Str) → Str → Str
  | [], str => str
  | (key, val) :: rest, str => scanPairs rest (scanReplace key val 0 str)

/-- The specification of `deaccent` on the table of `Name::setup`. -/
def deaccentSpec (str : Str) : Str := scanPairs m_diacritic str

/-- The number of bytes outside ASCII in a string. -/
def countHigh (s : Str) : Nat := s.countP (fun x => decide (128 ≤ x.val))

/-! ## Where one key can occur next to another -/

/-- Whether `k2` can begin at the start of `t ++ v` for some ASCII text `v`:
`k2` and `t` agree as far as both reach, and what is left of `k2` is ASCII. -/
def mayMatch : Str → Str → Bool
  | [], _ => true
  | a :: as, [] => (a :: as).all (fun x => decide (x.val < 128))
  | a :: as, b :: bs => a == b && mayMatch as bs

/-- Whether `k2` can begin inside `u ++ k ++ v` at or before the start of `k`,
for some ASCII texts `u` and `v`. -/
def canStart (k : Str) : Str → Bool
  | [] => true
  | a :: as => mayMatch (a :: as) k || (decide (a.val < 128) && canStart k as)

/-- No tail of `k` (the empty one included) lets `k2` begin there. -/
def noTailMatch (k2 : Str) : Str → Bool
  | [] => !(mayMatch k2 [])
  | b :: bs => !(mayMatch k2 (b :: bs)) && noTailMatch k2 bs

/-- The key `k2` occurs nowhere in `u ++ k ++ v`, whatever the ASCII texts
`u` and `v`. -/
def clearOf (k2 k : Str) : Bool := !(canStart k k2) && noTailMatch k2 k

/-- The key `k` begins nowhere in `u ++ k ++ v` before the end of `u`. -/
def selfClear : Str → Bool
  | [] => false
  | a :: as => !(decide (a.val < 128) && canStart (a :: as) as)

/-- A continuation byte of a multi-byte sequence. -/
def isCont (b : Byte) : Bool := decide (0x80 ≤ b.val) && decide (b.val < 0xc0)

/-- The key is one two-byte or one three-byte sequence: a lead byte that
tells the length, then continuation bytes. -/
def utf8Key : Str → Bool
  | [a, b] => decide (0xc0 ≤ a.val) && decide (a.val < 0xe0) && isCont b
  | [a, b, c] => decide (0xe0 ≤ a.val) && isCont b && isCont c
  | _ => false

/-- The check that a table folds each of its keys in ASCII surroundings: no
key begins early, and every key either is one multi-byte sequence or is
checked against every other key, in both roles. -/
def tableClear (table : List (Str × Str)) : Bool :=
  table.all (fun a => selfClear a.1 &&
    (utf8Key a.1 ||
      table.all (fun b => a.1 == b.1 || (clearOf a.1 b.1 && clearOf b.1 a.1))))

/-- Each number of the list is below the next. -/
def increasing : List Nat → Bool
  | a :: b :: rest => decide (a < b) && increasing (b :: rest)
  | _ => true

/-- A number for a key of up to four bytes; it grows along the table. -/
def keyCode (k : Str) : Nat :=
  ((k ++ [0, 0, 0, 0]).take 4).foldl (fun (n : Nat) (b : Byte) => n * 256 + b.val) 0

/-- A pair of the escape table: a one-character key and, as its value, a
backslash followed by that character. -/
def escapePairOk : Str × Str → Bool
  | ([b], [x, y]) => x == 0x5c && y == b
  | _ => false

/-! ## When the loop of `Name::deaccent` agrees with the left-to-right scan -/

/-- The replacement `val` put in front of `rest` lets the key begin at none
of the positions of `val`. -/
def NoRematch (key val rest : Str) : Prop :=
  ∀ m, m < val.length → key.isPrefixOf (val.drop m ++ rest) = false

/-- Wherever the key occurs in `t`, replacing that occurrence does not let the
key begin inside the replacement. -/
def Safe (key val t : Str) : Prop :=
  ∀ j, key.isPrefixOf (t.drop j) = true → NoRematch key val (t.drop (j + key.length))

/-- The pattern `pat` occurs nowhere in `t`. -/
def NoOcc (pat t : Str) : Prop := ∀ j, pat.isPrefixOf (t.drop j) = false

/-- The first byte of the key lies outside ASCII. -/
def headHigh : Str → Bool
  | [] => false
  | a :: _ => decide (128 ≤ a.val)

/-! ## Invariants of the distance table -/

/-- A table of `rows` rows, each of `cols` cells. -/
def TableOk (rows cols : Nat) (d : Table) : Prop :=
  d.length = rows ∧ ∀ row ∈ d, row.length = cols

/-- The cells already written when the inner loop is about to write
`d[i][j]`: row 0, column 0, the rows above `i`, and row `i` left of `j`. -/
def Written (i j i2 j2 : Nat) : Prop := i2 < i ∨ j2 = 0 ∨ (i2 = i ∧ j2 < j)

/-- The table has its shape and every written cell holds the recurrence. -/
def TableInv (a b : Str) (n1 n2 i j : Nat) (d : Table) : Prop :=
  TableOk (n1 + 1) (n2 + 1) d ∧
    ∀ i2 j2, i2 ≤ n1 → j2 ≤ n2 → Written i j i2 j2 →
      tget d i2 j2 = cell a b i2 j2

/-! ## Table reads and writes -/

theorem mkTable_ok (r c : Nat) : TableOk r c (mkTable r c) := by
  refine ⟨by simp [mkTable], ?_⟩
  intro row hrow
  simp only [mkTable] at hrow
  rw [List.eq_of_mem_replicate hrow]
  simp

theorem tget_mkTable (r c i j : Nat) : tget (mkTable r c) i j = 0 := by
  unfold tget mkTable
  simp only [List.getD_eq_getElem?_getD, List.getElem?_replicate]
  split <;> simp [List.getElem?_replicate]
  split <;> simp

theorem tset_ok {r c : Nat} {d : Table} (h : TableOk r c d) (i j v : Nat) :
    TableOk r c (tset d i j v) := by
  obtain ⟨hl, hr⟩ := h
  refine ⟨by simp [tset, hl], ?_⟩
  intro row hrow
  unfold tset at hrow
  by_cases hi : i < d.length
  · rcases List.mem_or_eq_of_mem_set hrow with h1 | h1
    · exact hr row h1
    · subst h1
      rw [List.length_set, List.getD_eq_getElem?_getD, List.getElem?_eq_getElem hi]
      exact hr _ (List.getElem_mem hi)
  · rw [List.set_eq_of_length_le (by omega)] at hrow
    exact hr _ hrow

theorem tget_tset {r c : Nat} {d : Table} (h : TableOk r c d) {i j : Nat}
    (hi : i < r) (hj : j < c) (v i2 j2 : Nat) :
    tget (tset d i j v) i2 j2 = if i2 = i ∧ j2 = j then v else tget d i2 j2 := by
  obtain ⟨hl, hr⟩ := h
  have hi2 : i < d.length := by omega
  have hrow : (d[i]).length = c := hr _ (List.getElem_mem hi2)
  unfold tget tset
  simp only [List.getD_eq_getElem?_getD, List.getElem?_set]
  by_cases e1 : i = i2
  · subst e1
    simp only [hi2, if_true, true_and, List.getElem?_eq_getElem, Option.getD_some]
    rw [List.getElem?_set]
    by_cases e2 : j = j2
    · subst e2
      simp [hrow, hj]
    · have e3 : ¬ j2 = j := fun e => e2 e.symm
      simp [e2, e3]
  · have e3 : ¬ i2 = i := fun e => e1 e.symm
    simp [e1, e3]

/-! ## Loop invariants -/

theorem forLoop_inv {σ : Type} (P : Nat → σ → Prop) (f : Nat → σ → σ) :
    ∀ (n lo : Nat) (s : σ), P lo s →
      (∀ k t, lo ≤ k → k < lo + n → P k t → P (k + 1) (f k t)) →
      P (lo + n) (forLoop lo n f s) := by
  intro n
  induction n with
  | zero => intro lo s h _; simpa [forLoop] using h
  | succ n ih =>
    intro lo s h step
    have h1 : P (lo + 1) (f lo s) := step lo s (Nat.le_refl _) (by omega) h
    have h2 := ih (lo + 1) (f lo s) h1
      (fun k t hk1 hk2 hp => step k t (by omega) (by omega) hp)
    have e : lo + (n + 1) = lo + 1 + n := by omega
    rw [e]
    simpa [forLoop] using h2

/-! ## The loops of `Name::dist` compute the recurrence `cell` -/

theorem cell_zero_left (a b : Str) (j : Nat) : cell a b 0 j = j := by
  rw [cell]; simp

theorem cell_zero_right (a b : Str) (i : Nat) : cell a b i 0 = i := by
  rw [cell]; simp
  intro h; exact h.symm

theorem cell_pos (a b : Str) {i j : Nat} (hi : 0 < i) (hj : 0 < j) :
    cell a b i j =
      if 1 < i ∧ 1 < j ∧ charAt a (i - 1) = charAt b (j - 2)
          ∧ charAt a (i - 2) = charAt b (j - 1) then
        min (min (min (cell a b (i - 1) j + 1) (cell a b i (j - 1) + 1))
          (cell a b (i - 1) (j - 1) + (if charAt a (i - 1) = charAt b (j - 1) then 0 else 1)))
          (cell a b (i - 2) (j - 2) + (if charAt a (i - 1) = charAt b (j - 1) then 0 else 1))
      else
        min (min (cell a b (i - 1) j + 1) (cell a b i (j - 1) + 1))
          (cell a b (i - 1) (j - 1) + (if charAt a (i - 1) = charAt b (j - 1) then 0 else 1)) := by
  have h1 : ¬ i = 0 := by omega
  have h2 : ¬ j = 0 := by omega
  rw [cell]
  simp only [h1, h2, dite_false]

theorem distStep_inv (a b : Str) {n1 n2 i j : Nat} (hi1 : 1 ≤ i) (hi2 : i ≤ n1)
    (hj1 : 1 ≤ j) (hj2 : j ≤ n2) {d : Table} (h : TableInv a b n1 n2 i j d) :
    TableInv a b n1 n2 i (j + 1) (distStep a b i j d) := by
  obtain ⟨hok, hcells⟩ := h
  have hil : i < n1 + 1 := by omega
  have hjl : j < n2 + 1 := by omega
  have g1 : tget d (i - 1) j = cell a b (i - 1) j :=
    hcells _ _ (by omega) hj2 (Or.inl (by omega))
  have g2 : tget d i (j - 1) = cell a b i (j - 1) :=
    hcells _ _ hi2 (by omega) (Or.inr (Or.inr ⟨rfl, by omega⟩))
  have g3 : tget d (i - 1) (j - 1) = cell a b (i - 1) (j - 1) :=
    hcells _ _ (by omega) (by omega) (Or.inl (by omega))
  have g4 : 1 < i → tget d (i - 2) (j - 2) = cell a b (i - 2) (j - 2) :=
    fun h1 => hcells _ _ (by omega) (by omega) (Or.inl (by omega))
  have hok1 := tset_ok hok i j
    (min (min (tget d (i - 1) j + 1) (tget d i (j - 1) + 1))
      (tget d (i - 1) (j - 1) + (if charAt a (i - 1) = charAt b (j - 1) then 0 else 1)))
  have key : ∀ i2 j2, i2 ≤ n1 → j2 ≤ n2 → Written i (j + 1) i2 j2 →
      ¬ (i2 = i ∧ j2 = j) → tget d i2 j2 = cell a b i2 j2 := by
    intro i2 j2 h1 h2 hw hne
    apply hcells i2 j2 h1 h2
    rcases hw with hw | hw | ⟨hw1, hw2⟩
    · exact Or.inl hw
    · exact Or.inr (Or.inl hw)
    · refine Or.inr (Or.inr ⟨hw1, ?_⟩)
      by_contra hc
      exact hne ⟨hw1, by omega⟩
  unfold distStep
  simp only
  split
  · rename_i hc
    refine ⟨tset_ok hok1 _ _ _, ?_⟩
    intro i2 j2 h1 h2 hw
    simp only [tget_tset hok1 hil hjl, tget_tset hok hil hjl]
    by_cases e : i2 = i ∧ j2 = j
    · obtain ⟨e1, e2⟩ := e
      subst e1; subst e2
      have hne : ¬ (i2 - 2 = i2 ∧ j2 - 2 = j2) := by omega
      simp only [and_self, if_true, hne, if_false]
      rw [cell_pos a b (by omega) (by omega), if_pos hc, g1, g2, g3, g4 hc.1]
    · simp only [if_neg e]
      exact key i2 j2 h1 h2 hw e
  · rename_i hc
    refine ⟨hok1, ?_⟩
    intro i2 j2 h1 h2 hw
    rw [tget_tset hok hil hjl]
    by_cases e : i2 = i ∧ j2 = j
    · obtain ⟨e1, e2⟩ := e
      subst e1; subst e2
      simp only [and_self, if_true]
      rw [cell_pos a b (by omega) (by omega), if_neg hc, g1, g2, g3]
    · simp only [if_neg e]
      exact key i2 j2 h1 h2 hw e

theorem initLoops_inv (a b : Str) (n1 n2 : Nat) :
    TableInv a b n1 n2 1 1
      (forLoop 0 (n2 + 1) (fun j d => tset d 0 j j)
        (forLoop 0 (n1 + 1) (fun i d => tset d i 0 i)
          (mkTable (n1 + 1) (n2 + 1)))) := by
  have h1 := forLoop_inv
    (fun k d => TableOk (n1 + 1) (n2 + 1) d ∧ ∀ i, i < k → tget d i 0 = i)
    (fun i d => tset d i 0 i) (n1 + 1) 0 (mkTable (n1 + 1) (n2 + 1))
    ⟨mkTable_ok _ _, fun i hi => absurd hi (Nat.not_lt_zero i)⟩
    (by
      intro k t _ hk ⟨hok, hc⟩
      refine ⟨tset_ok hok _ _ _, ?_⟩
      intro i hi
      rw [tget_tset hok (by omega) (by omega)]
      by_cases e : i = k
      · simp [e]
      · simp only [e, false_and, if_false]
        exact hc i (by omega))
  have h2 := forLoop_inv
    (fun k d => TableOk (n1 + 1) (n2 + 1) d ∧
      (∀ i, i < n1 + 1 → tget d i 0 = i) ∧ ∀ j, j < k → tget d 0 j = j)
    (fun j d => tset d 0 j j) (n2 + 1) 0 _
    ⟨h1.1, by simpa using h1.2, fun j hj => absurd hj (Nat.not_lt_zero j)⟩
    (by
      intro k t _ hk ⟨hok, hc1, hc2⟩
      refine ⟨tset_ok hok _ _ _, ?_, ?_⟩
      · intro i hi
        rw [tget_tset hok (by omega) (by omega)]
        by_cases e : i = 0 ∧ 0 = k
        · rw [if_pos e]; omega
        · rw [if_neg e]; exact hc1 i hi
      · intro j hj
        rw [tget_tset hok (by omega) (by omega)]
        by_cases e : j = k
        · simp [e]
        · simp only [e, and_false, if_false]
          exact hc2 j (by omega))
  obtain ⟨hok, hc1, hc2⟩ := h2
  refine ⟨hok, ?_⟩
  intro i2 j2 hi hj hw
  rcases hw with hw | hw | ⟨_, hw⟩
  · have e : i2 = 0 := by omega
    subst e
    rw [cell_zero_left]
    exact hc2 j2 (by omega)
  · subst hw
    rw [cell_zero_right]
    exact hc1 i2 (by omega)
  · have e : j2 = 0 := by omega
    subst e
    rw [cell_zero_right]
    exact hc1 i2 (by omega)

theorem distTable_inv (a b : Str) (n1 n2 : Nat) :
    TableInv a b n1 n2 (1 + n1) 1 (distTable a b n1 n2) := by
  unfold distTable
  simp only
  apply forLoop_inv (fun i d => TableInv a b n1 n2 i 1 d)
  · exact initLoops_inv a b n1 n2
  · intro i d hi1 hi2 hinv
    have h := forLoop_inv (fun j d => TableInv a b n1 n2 i j d)
      (fun j d => distStep a b i j d) n2 1 d hinv
      (fun j t hj1 hj2 hp => distStep_inv a b hi1 (by omega) hj1 (by omega) hp)
    obtain ⟨hok, hc⟩ := h
    refine ⟨hok, ?_⟩
    intro i2 j2 h1 h2 hw
    apply hc i2 j2 h1 h2
    rcases hw with hw | hw | ⟨hw1, hw2⟩
    · by_cases e : i2 = i
      · exact Or.inr (Or.inr ⟨e, by omega⟩)
      · exact Or.inl (by omega)
    · exact Or.inr (Or.inl hw)
    · exact Or.inr (Or.inl (by omega))

/-- Every cell of the finished table holds the recurrence. -/
theorem tget_distTable (a b : Str) {n1 n2 i j : Nat} (hi : i ≤ n1) (hj : j ≤ n2) :
    tget (distTable a b n1 n2) i j = cell a b i j :=
  (distTable_inv a b n1 n2).2 i j hi hj (Or.inl (by omega))

theorem toInt32_ok {n : Nat} (h : 0 ≤ toInt32 n ∧ toInt32 n < 2147483647) :
    (toInt32 n).toNat = n % 4294967296 ∧ n % 4294967296 < 2147483647 := by
  unfold toInt32 at h ⊢
  split at h <;> rename_i hlt
  · rw [if_pos hlt]
    simp only [Int.ofNat_eq_coe] at h ⊢
    omega
  · simp only [Int.ofNat_eq_coe] at h
    omega

theorem toInt32_of_lt {n : Nat} (h : n % 4294967296 < 2147483647) :
    0 ≤ toInt32 n ∧ toInt32 n < 2147483647 := by
  unfold toInt32
  rw [if_pos (by omega)]
  simp only [Int.ofNat_eq_coe]
  omega

/-- What `Name::dist` returns: where both narrowed sizes are usable, the cell
of the recurrence at the narrowed sizes. -/
theorem dist_eq_cell (a b : Str) :
    dist a b =
      if a.length % 4294967296 < 2147483647 ∧ b.length % 4294967296 < 2147483647 then
        some (cell a b (a.length % 4294967296) (b.length % 4294967296))
      else none := by
  unfold dist
  simp only
  by_cases h : 0 ≤ toInt32 a.length ∧ toInt32 a.length < 2147483647
      ∧ 0 ≤ toInt32 b.length ∧ toInt32 b.length < 2147483647
  · have ha := toInt32_ok ⟨h.1, h.2.1⟩
    have hb := toInt32_ok ⟨h.2.2.1, h.2.2.2⟩
    rw [if_pos h, if_pos ⟨ha.2, hb.2⟩, ha.1, hb.1,
      tget_distTable a b (Nat.le_refl _) (Nat.le_refl _)]
  · have h2 : ¬ (a.length % 4294967296 < 2147483647
        ∧ b.length % 4294967296 < 2147483647) := by
      intro hc
      have ha := toInt32_of_lt hc.1
      have hb := toInt32_of_lt hc.2
      exact h ⟨ha.1, ha.2, hb.1, hb.2⟩
    rw [if_neg h, if_neg h2]

/-- For strings whose sizes fit an `int` with room for `+ 1`, `Name::dist`
returns the cell of the recurrence at the true sizes. -/
theorem dist_of_short (a b : Str) (ha : a.length < 2147483647) (hb : b.length < 2147483647) :
    dist a b = some (cell a b a.length b.length) := by
  have ea : a.length % 4294967296 = a.length := Nat.mod_eq_of_lt (by omega)
  have eb : b.length % 4294967296 = b.length := Nat.mod_eq_of_lt (by omega)
  rw [dist_eq_cell, ea, eb, if_pos ⟨ha, hb⟩]

/-! ## Properties of the recurrence -/

/-- The indicator `cost` of the loop body. -/
theorem cell_diag_le (a b : Str) {i j : Nat} (hi : 0 < i) (hj : 0 < j) :
    cell a b i j ≤ cell a b (i - 1) (j - 1) +
      (if charAt a (i - 1) = charAt b (j - 1) then 0 else 1) := by
  rw [cell_pos a b hi hj]
  split <;> omega

theorem osaCell_pos (a b : Str) {i j : Nat} (hi : 0 < i) (hj : 0 < j) :
    osaCell a b i j =
      if 1 < i ∧ 1 < j ∧ charAt a (i - 1) = charAt b (j - 2)
          ∧ charAt a (i - 2) = charAt b (j - 1) then
        min (min (min (osaCell a b (i - 1) j + 1) (osaCell a b i (j - 1) + 1))
          (osaCell a b (i - 1) (j - 1) +
            (if charAt a (i - 1) = charAt b (j - 1) then 0 else 1)))
          (osaCell a b (i - 2) (j - 2) + 1)
      else
        min (min (osaCell a b (i - 1) j + 1) (osaCell a b i (j - 1) + 1))
          (osaCell a b (i - 1) (j - 1) +
            (if charAt a (i - 1) = charAt b (j - 1) then 0 else 1)) := by
  have h1 : ¬ i = 0 := by omega
  have h2 : ¬ j = 0 := by omega
  rw [osaCell]
  simp only [h1, h2, dite_false]

/-- Pricing the transposition at `cost` or at a flat 1 fills the same table. -/
theorem cell_eq_osaCell (a b : Str) : ∀ (n i j : Nat), i + j ≤ n →
    cell a b i j = osaCell a b i j := by
  intro n
  induction n with
  | zero =>
    intro i j h
    have e : i = 0 := by omega
    subst e
    rw [cell, osaCell]; simp
  | succ n ih =>
    intro i j h
    by_cases hi : i = 0
    · subst hi; rw [cell, osaCell]; simp
    by_cases hj : j = 0
    · subst hj; rw [cell, osaCell]; simp [hi]
    rw [cell_pos a b (by omega) (by omega), osaCell_pos a b (by omega) (by omega),
      ← ih (i - 1) j (by omega), ← ih i (j - 1) (by omega), ← ih (i - 1) (j - 1) (by omega),
      ← ih (i - 2) (j - 2) (by omega)]
    by_cases hc : 1 < i ∧ 1 < j ∧ charAt a (i - 1) = charAt b (j - 2)
        ∧ charAt a (i - 2) = charAt b (j - 1)
    · rw [if_pos hc, if_pos hc]
      by_cases he : charAt a (i - 1) = charAt b (j - 1)
      · have hd := cell_diag_le a b (i := i - 1) (j := j - 1) (by omega) (by omega)
        have e1 : i - 1 - 1 = i - 2 := by omega
        have e2 : j - 1 - 1 = j - 2 := by omega
        have e3 : charAt a (i - 2) = charAt b (j - 2) := by
          rw [hc.2.2.2, ← he, hc.2.2.1]
        rw [e1, e2, if_pos e3] at hd
        rw [if_pos he]
        omega
      · rw [if_neg he]
    · rw [if_neg hc, if_neg hc]

/-- The recurrence is symmetric under exchanging the two strings. -/
theorem cell_symm (a b : Str) : ∀ (n i j : Nat), i + j ≤ n →
    cell a b i j = cell b a j i := by
  intro n
  induction n with
  | zero =>
    intro i j h
    have e : i = 0 := by omega
    have e2 : j = 0 := by omega
    subst e; subst e2
    rw [cell_zero_left, cell_zero_left]
  | succ n ih =>
    intro i j h
    by_cases hi : i = 0
    · subst hi; rw [cell_zero_left, cell_zero_right]
    by_cases hj : j = 0
    · subst hj; rw [cell_zero_left, cell_zero_right]
    rw [cell_pos a b (by omega) (by omega), cell_pos b a (by omega) (by omega),
      ih (i - 1) j (by omega), ih i (j - 1) (by omega), ih (i - 1) (j - 1) (by omega),
      ih (i - 2) (j - 2) (by omega)]
    have ec : (if charAt a (i - 1) = charAt b (j - 1) then 0 else 1)
        = (if charAt b (j - 1) = charAt a (i - 1) then 0 else 1) := by
      by_cases he : charAt a (i - 1) = charAt b (j - 1)
      · rw [if_pos he, if_pos he.symm]
      · rw [if_neg he, if_neg (fun e => he e.symm)]
    rw [ec]
    by_cases hc : 1 < i ∧ 1 < j ∧ charAt a (i - 1) = charAt b (j - 2)
        ∧ charAt a (i - 2) = charAt b (j - 1)
    · have hc2 : 1 < j ∧ 1 < i ∧ charAt b (j - 1) = charAt a (i - 2)
          ∧ charAt b (j - 2) = charAt a (i - 1) :=
        ⟨hc.2.1, hc.1, hc.2.2.2.symm, hc.2.2.1.symm⟩
      rw [if_pos hc, if_pos hc2]
      omega
    · have hc2 : ¬ (1 < j ∧ 1 < i ∧ charAt b (j - 1) = charAt a (i - 2)
          ∧ charAt b (j - 2) = charAt a (i - 1)) :=
        fun h2 => hc ⟨h2.2.1, h2.1, h2.2.2.2.symm, h2.2.2.1.symm⟩
      rw [if_neg hc, if_neg hc2]
      omega

/-- On a common prefix the diagonal of the table is zero. -/
theorem cell_diag_zero (a b : Str) : ∀ n : Nat,
    (∀ k, k < n → charAt a k = charAt b k) → cell a b n n = 0 := by
  intro n
  induction n with
  | zero => intro _; rw [cell_zero_left]
  | succ n ih =>
    intro h
    have h1 := cell_diag_le a b (i := n + 1) (j := n + 1) (by omega) (by omega)
    have h2 := ih (fun k hk => h k (by omega))
    simp only [Nat.add_sub_cancel] at h1
    rw [if_pos (h n (by omega)), h2] at h1
    omega

/-- No cell exceeds the longer of its two prefix lengths. -/
theorem cell_le_max (a b : Str) : ∀ (n i j : Nat), i + j ≤ n →
    cell a b i j ≤ max i j := by
  intro n
  induction n with
  | zero =>
    intro i j h
    have e : i = 0 := by omega
    subst e
    rw [cell_zero_left]; omega
  | succ n ih =>
    intro i j h
    by_cases hi : i = 0
    · subst hi; rw [cell_zero_left]; omega
    by_cases hj : j = 0
    · subst hj; rw [cell_zero_right]; omega
    have h1 := cell_diag_le a b (i := i) (j := j) (by omega) (by omega)
    have h2 := ih (i - 1) (j - 1) (by omega)
    split at h1 <;> omega

/-- A zero cell means the two prefixes are the same string. -/
theorem cell_eq_zero (a b : Str) : ∀ (n i j : Nat), i + j ≤ n → cell a b i j = 0 →
    i = j ∧ ∀ k, k < i → charAt a k = charAt b k := by
  intro n
  induction n with
  | zero =>
    intro i j h _
    have e : i = 0 := by omega
    have e2 : j = 0 := by omega
    subst e; subst e2
    exact ⟨rfl, fun k hk => absurd hk (Nat.not_lt_zero k)⟩
  | succ n ih =>
    intro i j h hz
    by_cases hi : i = 0
    · subst hi
      rw [cell_zero_left] at hz
      exact ⟨hz.symm, fun k hk => absurd hk (Nat.not_lt_zero k)⟩
    by_cases hj : j = 0
    · subst hj
      rw [cell_zero_right] at hz
      exact absurd hz hi
    rw [cell_pos a b (by omega) (by omega)] at hz
    by_cases he : charAt a (i - 1) = charAt b (j - 1)
    · rw [if_pos he] at hz
      have diag : cell a b (i - 1) (j - 1) = 0 →
          i = j ∧ ∀ k, k < i → charAt a k = charAt b k := by
        intro h0
        obtain ⟨e1, e2⟩ := ih (i - 1) (j - 1) (by omega) h0
        have e3 : i = j := by omega
        refine ⟨e3, ?_⟩
        intro k hk
        by_cases hk2 : k < i - 1
        · exact e2 k hk2
        · have e4 : k = i - 1 := by omega
          have e5 : k = j - 1 := by omega
          rw [e4]; nth_rewrite 2 [← e4]; rw [e5]; exact he
      by_cases hc : 1 < i ∧ 1 < j ∧ charAt a (i - 1) = charAt b (j - 2)
          ∧ charAt a (i - 2) = charAt b (j - 1)
      · rw [if_pos hc] at hz
        by_cases h0 : cell a b (i - 1) (j - 1) = 0
        · exact diag h0
        · have h00 : cell a b (i - 2) (j - 2) = 0 := by omega
          obtain ⟨e1, e2⟩ := ih (i - 2) (j - 2) (by omega) h00
          have e3 : i = j := by omega
          subst e3
          refine ⟨rfl, ?_⟩
          intro k hk
          by_cases hk2 : k < i - 2
          · exact e2 k hk2
          · by_cases hk3 : k = i - 1
            · rw [hk3]; exact he
            · have e4 : k = i - 2 := by omega
              rw [e4, hc.2.2.2, ← he, hc.2.2.1]
      · rw [if_neg hc] at hz
        exact diag (by omega)
    · rw [if_neg he] at hz
      exfalso
      split at hz <;> omega

/-! ## One adjacent swap -/

theorem charAt_append_left (p t : Str) {k : Nat} (h : k < p.length) :
    charAt (p ++ t) k = charAt p k :=
  List.getD_append p t 0 k h

theorem charAt_append_right (p t : Str) (k : Nat) :
    charAt (p ++ t) (p.length + k) = charAt t k := by
  unfold charAt
  rw [List.getD_append_right p t 0 (p.length + k) (by omega)]
  congr 1
  omega

/-- Past a swapped pair the diagonal stays at most 1. -/
theorem cell_swap_le (p s : Str) (x y : Byte) : ∀ k : Nat,
    cell (p ++ x :: y :: s) (p ++ y :: x :: s) (p.length + 2 + k) (p.length + 2 + k) ≤ 1 := by
  intro k
  induction k with
  | zero =>
    have h0 : cell (p ++ x :: y :: s) (p ++ y :: x :: s) p.length p.length = 0 := by
      apply cell_diag_zero
      intro k hk
      rw [charAt_append_left p _ hk, charAt_append_left p _ hk]
    have a0 : charAt (p ++ x :: y :: s) p.length = x := charAt_append_right p _ 0
    have a1 : charAt (p ++ x :: y :: s) (p.length + 1) = y := charAt_append_right p _ 1
    have b0 : charAt (p ++ y :: x :: s) p.length = y := charAt_append_right p _ 0
    have b1 : charAt (p ++ y :: x :: s) (p.length + 1) = x := charAt_append_right p _ 1
    have hc : 1 < p.length + 2 + 0 ∧ 1 < p.length + 2 + 0
        ∧ charAt (p ++ x :: y :: s) (p.length + 2 + 0 - 1)
          = charAt (p ++ y :: x :: s) (p.length + 2 + 0 - 2)
        ∧ charAt (p ++ x :: y :: s) (p.length + 2 + 0 - 2)
          = charAt (p ++ y :: x :: s) (p.length + 2 + 0 - 1) := by
      refine ⟨by omega, by omega, ?_, ?_⟩
      · show charAt _ (p.length + 1) = charAt _ p.length
        rw [a1, b0]
      · show charAt _ p.length = charAt _ (p.length + 1)
        rw [a0, b1]
    rw [cell_pos _ _ (by omega) (by omega), if_pos hc]
    have e : p.length + 2 + 0 - 2 = p.length := by omega
    rw [e, h0]
    split <;> omega
  | succ k ih =>
    have h1 := cell_diag_le (p ++ x :: y :: s) (p ++ y :: x :: s)
      (i := p.length + 2 + (k + 1)) (j := p.length + 2 + (k + 1)) (by omega) (by omega)
    have e : p.length + 2 + (k + 1) - 1 = p.length + (k + 2) := by omega
    have e2 : p.length + 2 + (k + 1) - 1 = p.length + 2 + k := by omega
    have hch : charAt (p ++ x :: y :: s) (p.length + (k + 2))
        = charAt (p ++ y :: x :: s) (p.length + (k + 2)) := by
      rw [charAt_append_right, charAt_append_right]
      rfl
    rw [e, if_pos hch, ← e, e2] at h1
    omega

/-! ## The scan of `Name::deaccent` -/

theorem mem_of_isPrefixOf {x : Byte} : ∀ (key l : Str),
    key.isPrefixOf l = true → x ∈ key → x ∈ l := by
  intro key
  induction key with
  | nil => intro l _ hx; exact absurd hx (List.not_mem_nil x)
  | cons k ks ih =>
    intro l h hx
    cases l with
    | nil => simp [List.isPrefixOf] at h
    | cons c cs =>
      simp only [List.isPrefixOf, Bool.and_eq_true, beq_iff_eq] at h
      rcases List.mem_cons.1 hx with e | e
      · rw [e, h.1]; exact List.mem_cons_self _ _
      · exact List.mem_cons_of_mem _ (ih cs h.2 e)

/-- A key with a byte that the text lacks is found nowhere. -/
theorem findFrom_eq_none {key : Str} {x : Byte} (hx : x ∈ key) : ∀ (l : Str) (p : Nat),
    x ∉ l → findFrom key l p = none := by
  intro l
  induction l with
  | nil =>
    intro p hn
    unfold findFrom
    split
    · rename_i h; exact absurd (mem_of_isPrefixOf key [] h hx) hn
    · rfl
  | cons c cs ih =>
    intro p hn
    unfold findFrom
    split
    · rename_i h; exact absurd (mem_of_isPrefixOf key (c :: cs) h hx) hn
    · exact ih (p + 1) (fun h => hn (List.mem_cons_of_mem _ h))

theorem deaccentLoop_of_absent {key : Str} {x : Byte} (hx : x ∈ key) (val str : Str)
    (hn : x ∉ str) (fuel : Nat) : deaccentLoop (fuel + 1) key val str 0 = some str := by
  have h : find str key 0 = none := by
    unfold find
    rw [if_pos (Nat.zero_le _), List.drop_zero]
    exact findFrom_eq_none hx str 0 hn
  unfold deaccentLoop
  rw [h]

theorem deaccentPairs_of_absent (str : Str) (fuel : Nat) : ∀ table : List (Str × Str),
    (∀ kv ∈ table, ∃ x ∈ kv.1, x ∉ str) →
    deaccentPairs (fuel + 1) table str = some str := by
  intro table
  induction table with
  | nil => intro _; rfl
  | cons kv rest ih =>
    intro h
    obtain ⟨key, val⟩ := kv
    obtain ⟨x, hx, hn⟩ := h (key, val) (List.mem_cons_self _ _)
    unfold deaccentPairs
    rw [deaccentLoop_of_absent hx val str hn fuel]
    exact ih (fun kv hkv => h kv (List.mem_cons_of_mem _ hkv))

theorem isroman_bound : ∀ s : Str, isroman s = true → ∀ x ∈ s, x.val ≤ 126 := by
  intro s
  induction s with
  | nil => intro _ x hx; exact absurd hx (List.not_mem_nil x)
  | cons c cs ih =>
    intro h x hx
    unfold isroman at h
    split at h
    · exact absurd h (by simp)
    · rename_i hc
      simp only [Bool.not_eq_true, Bool.not_eq_false', Bool.and_eq_true, decide_eq_true_eq]
        at hc
      rcases List.mem_cons.1 hx with e | e
      · rw [e]; exact hc.2
      · exact ih h x e

/-- The map built by the assignments of `Name::setup` is the ordered list. -/
theorem m_diacritic_eq : m_diacritic = diacriticOrdered := by
  decide!

/-- Every key of the table holds a byte outside ASCII. -/
theorem m_diacritic_high :
    m_diacritic.all (fun kv => kv.1.any (fun x => decide (128 ≤ x.val))) = true := by
  rw [m_diacritic_eq]
  decide!

/-- More fuel never changes the result of a finished inner loop. -/
theorem deaccentLoop_mono (key val : Str) : ∀ (fuel : Nat) (str : Str) (pos : Nat) (r : Str),
    deaccentLoop fuel key val str pos = some r →
    ∀ k, deaccentLoop (fuel + k) key val str pos = some r := by
  intro fuel
  induction fuel with
  | zero => intro str pos r h; simp [deaccentLoop] at h
  | succ fuel ih =>
    intro str pos r h k
    have e : fuel + 1 + k = (fuel + k) + 1 := by omega
    rw [e]
    unfold deaccentLoop at h ⊢
    split
    · rename_i hf; rw [hf] at h; exact h
    · rename_i p hf
      rw [hf] at h
      exact ih _ _ r h k

theorem deaccentPairs_mono (fuel : Nat) : ∀ (table : List (Str × Str)) (str r : Str),
    deaccentPairs fuel table str = some r →
    ∀ k, deaccentPairs (fuel + k) table str = some r := by
  intro table
  induction table with
  | nil => intro str r h k; simpa [deaccentPairs] using h
  | cons kv rest ih =>
    intro str r h k
    obtain ⟨key, val⟩ := kv
    unfold deaccentPairs at h ⊢
    split at h
    · exact absurd h (by simp)
    · rename_i str2 h2
      rw [deaccentLoop_mono key val fuel str 0 str2 h2 k]
      exact ih str2 r h k

/-! ## The narrowed sizes -/

/-- No addition in the table of `Name::dist` leaves the range of `int`. -/
theorem cell_fits_int (a b : Str) {i j : Nat} (hi : i < 2147483647) (hj : j < 2147483647) :
    cell a b i j + 1 ≤ 2147483647 := by
  have h := cell_le_max a b _ i j (Nat.le_refl _)
  omega

theorem osaCell_zero_right (a b : Str) (i : Nat) : osaCell a b i 0 = i := by
  rw [osaCell]; simp
  intro h; exact h.symm

/-- What `Name::dist` returns on strings whose sizes narrow to `n1` and `n2`. -/
theorem dist_of_wrap (a b : Str) (n1 n2 : Nat) (ha : a.length % 4294967296 = n1)
    (hb : b.length % 4294967296 = n2) (h1 : n1 < 2147483647) (h2 : n2 < 2147483647) :
    dist a b = some (cell a b n1 n2) := by
  rw [dist_eq_cell, ha, hb, if_pos ⟨h1, h2⟩]

/-- A string whose size is a multiple of `2^32` is at distance 0 from the
empty string, as `Name::dist` computes it. -/
theorem dist_wrapped_empty (s : Str) (hs : s.length % 4294967296 = 0) :
    dist [] s = some 0 ∧ dist s [] = some 0 := by
  constructor
  · rw [dist_of_wrap [] s 0 0 rfl hs (by omega) (by omega), cell_zero_left]
  · rw [dist_of_wrap s [] 0 0 hs rfl (by omega) (by omega), cell_zero_left]

/-- After a prefix whose size is a multiple of `2^32`, a swapped pair is not
seen: the sizes narrow to 2 and the first two bytes of the prefix agree. -/
theorem dist_wrapped_swap (p : Str) (hp : p.length % 4294967296 = 0) (hp2 : 2 ≤ p.length)
    (x y : Byte) : dist (p ++ x :: y :: []) (p ++ y :: x :: []) = some 0 := by
  have hl : ∀ t : Str, t.length = 2 → (p ++ t).length % 4294967296 = 2 := by
    intro t ht
    rw [List.length_append, ht]
    omega
  rw [dist_of_wrap (p ++ x :: y :: []) (p ++ y :: x :: []) 2 2 (hl (x :: y :: []) rfl)
    (hl (y :: x :: []) rfl) (by omega) (by omega)]
  refine congrArg some (cell_diag_zero _ _ 2 ?_)
  intro k hk
  have hk2 : k < p.length := by omega
  rw [charAt_append_left _ _ hk2, charAt_append_left _ _ hk2]

theorem dist_some_elim {a b : Str} {v : Nat} (h : dist a b = some v) :
    a.length % 4294967296 < 2147483647 ∧ b.length % 4294967296 < 2147483647 ∧
      v = cell a b (a.length % 4294967296) (b.length % 4294967296) := by
  rw [dist_eq_cell] at h
  split at h
  · rename_i hc
    simp only [Option.some.injEq] at h
    exact ⟨hc.1, hc.2, h.symm⟩
  · exact absurd h (by simp)

/-! ## The claims about `Name::dist` -/

/-- Claim C1 as stated fails on a string of `2^32` bytes and the empty string:
`static_cast<int>` narrows the size `2^32` to 0, so `Name::dist` returns 0,
while the restricted distance is `2^32`. -/
theorem dist_narrows_size :
    dist (List.replicate 4294967296 0) [] = some 0 ∧
      osaDist (List.replicate 4294967296 0) [] = 4294967296 := by
  constructor
  · exact (dist_wrapped_empty _ (by rw [List.length_replicate])).2
  · unfold osaDist
    rw [List.length_replicate, List.length_nil, osaCell_zero_right]

/-- Claim C1, amended: for all strings `a` and `b` of fewer than `2^31 - 1`
bytes, `Name::dist(a, b)` is the restricted (optimal string alignment)
Damerau-Levenshtein distance with unit costs, the value of the same table
with the transposition branch priced at a flat `d[i-2][j-2] + 1`; pricing it
at `cost` never changes the result. -/
theorem dist_eq_osaDist (a b : Str) (ha : a.length < 2147483647)
    (hb : b.length < 2147483647) : dist a b = some (osaDist a b) := by
  rw [dist_of_short a b ha hb]
  exact congrArg some (cell_eq_osaCell a b _ _ _ (Nat.le_refl _))

/-- An instance of the amended claim C1: "kitten" and "sitting". -/
theorem dist_eq_osaDist_kitten :
    ([0x6b, 0x69, 0x74, 0x74, 0x65, 0x6e] : Str).length < 2147483647 ∧
      ([0x73, 0x69, 0x74, 0x74, 0x69, 0x6e, 0x67] : Str).length < 2147483647 ∧
      dist [0x6b, 0x69, 0x74, 0x74, 0x65, 0x6e] [0x73, 0x69, 0x74, 0x74, 0x69, 0x6e, 0x67]
        = some (osaDist [0x6b, 0x69, 0x74, 0x74, 0x65, 0x6e]
          [0x73, 0x69, 0x74, 0x74, 0x69, 0x6e, 0x67]) :=
  ⟨by decide, by decide, dist_eq_osaDist _ _ (by decide) (by decide)⟩

/-- Claim C5: `Name::dist` is symmetric, `dist(a, b) = dist(b, a)`: the two
calls return the same value, or both return nothing. -/
theorem dist_symm (a b : Str) : dist a b = dist b a := by
  rw [dist_eq_cell, dist_eq_cell]
  by_cases h : a.length % 4294967296 < 2147483647 ∧ b.length % 4294967296 < 2147483647
  · rw [if_pos h, if_pos ⟨h.2, h.1⟩]
    exact congrArg some (cell_symm a b _ _ _ (Nat.le_refl _))
  · rw [if_neg h, if_neg (fun h2 => h ⟨h2.2, h2.1⟩)]

/-- Claim C6: for every string `s`, `Name::dist(s, s) = 0`: whatever value the
call returns is 0, and for `s` of fewer than `2^31 - 1` bytes it returns. -/
theorem dist_self (s : Str) :
    (∀ v, dist s s = some v → v = 0) ∧ (s.length < 2147483647 → dist s s = some 0) := by
  constructor
  · intro v h
    rw [(dist_some_elim h).2.2]
    exact cell_diag_zero s s _ (fun _ _ => rfl)
  · intro h
    rw [dist_of_short s s h h]
    exact congrArg some (cell_diag_zero s s _ (fun _ _ => rfl))

/-- An instance of claim C6: the string "ab". -/
theorem dist_self_ab : dist [0x61, 0x62] [0x61, 0x62] = some 0 :=
  (dist_self [0x61, 0x62]).2 (by decide)

/-- Claim C7: for all strings `a` and `b`, `Name::dist(a, b)` is at most
`max(|a|, |b|)`: whatever value the call returns is, and for strings of fewer
than `2^31 - 1` bytes it returns. -/
theorem dist_le_max (a b : Str) :
    (∀ v, dist a b = some v → v ≤ max a.length b.length) ∧
      (a.length < 2147483647 → b.length < 2147483647 →
        ∃ v, dist a b = some v ∧ v ≤ max a.length b.length) := by
  constructor
  · intro v h
    obtain ⟨_, _, hv⟩ := dist_some_elim h
    have h1 := cell_le_max a b _ (a.length % 4294967296) (b.length % 4294967296)
      (Nat.le_refl _)
    have h2 := Nat.mod_le a.length 4294967296
    have h3 := Nat.mod_le b.length 4294967296
    omega
  · intro ha hb
    refine ⟨_, dist_of_short a b ha hb, ?_⟩
    exact cell_le_max a b _ _ _ (Nat.le_refl _)

/-- An instance of claim C7: "kitten" and "sitting" are at distance at most 7. -/
theorem dist_le_max_kitten :
    ∃ v, dist [0x6b, 0x69, 0x74, 0x74, 0x65, 0x6e] [0x73, 0x69, 0x74, 0x74, 0x69, 0x6e, 0x67]
        = some v ∧
      v ≤ max ([0x6b, 0x69, 0x74, 0x74, 0x65, 0x6e] : Str).length
        ([0x73, 0x69, 0x74, 0x74, 0x69, 0x6e, 0x67] : Str).length :=
  (dist_le_max _ _).2 (by decide) (by decide)

/-- Claim C8 as stated fails on a string `s` of `2^32` bytes: the size is
narrowed to 0 and `Name::dist("", s)` returns 0, not `|s|`. -/
theorem dist_empty_wide :
    dist [] (List.replicate 4294967296 0) = some 0 ∧
      (List.replicate 4294967296 (0 : Byte)).length = 4294967296 := by
  constructor
  · exact (dist_wrapped_empty _ (by rw [List.length_replicate])).1
  · rw [List.length_replicate]

/-- Claim C8, amended: for every string `s` of fewer than `2^31 - 1` bytes,
`Name::dist("", s) = |s|` and `Name::dist(s, "") = |s|`. -/
theorem dist_empty (s : Str) (h : s.length < 2147483647) :
    dist [] s = some s.length ∧ dist s [] = some s.length := by
  constructor
  · rw [dist_of_short [] s (by decide) h]
    exact congrArg some (cell_zero_left _ _ _)
  · rw [dist_of_short s [] h (by decide)]
    exact congrArg some (cell_zero_right _ _ _)

/-- An instance of the amended claim C8: the string "abc". -/
theorem dist_empty_abc :
    ([0x61, 0x62, 0x63] : Str).length < 2147483647 ∧
      dist [] [0x61, 0x62, 0x63] = some ([0x61, 0x62, 0x63] : Str).length ∧
      dist [0x61, 0x62, 0x63] [] = some ([0x61, 0x62, 0x63] : Str).length :=
  ⟨by decide, dist_empty [0x61, 0x62, 0x63] (by decide)⟩

/-- Claim C9 as stated fails when the swap lies beyond byte `2^32`: with `p`
of `2^32` zero bytes both sizes narrow to 2, only the two leading bytes of
`p` are compared, and `Name::dist` returns 0. -/
theorem dist_swap_beyond_int :
    (1 : Byte) ≠ 2 ∧
      dist (List.replicate 4294967296 0 ++ 1 :: 2 :: [])
        (List.replicate 4294967296 0 ++ 2 :: 1 :: []) = some 0 := by
  refine ⟨by decide, ?_⟩
  exact dist_wrapped_swap _ (by rw [List.length_replicate])
    (by rw [List.length_replicate]; omega) 1 2

/-- Claim C9, amended: one adjacent swap costs exactly 1: for all strings
`p`, `s` and distinct characters `x`, `y` with `|p| + 2 + |s| < 2^31 - 1`,
`Name::dist(p + x + y + s, p + y + x + s) = 1`. -/
theorem dist_adjacent_swap (p s : Str) (x y : Byte)
    (hl : p.length + 2 + s.length < 2147483647) (hxy : x ≠ y) :
    dist (p ++ x :: y :: s) (p ++ y :: x :: s) = some 1 := by
  have hl1 : (p ++ x :: y :: s).length = p.length + 2 + s.length := by simp; omega
  have hl2 : (p ++ y :: x :: s).length = p.length + 2 + s.length := by simp; omega
  rw [dist_of_short _ _ (by omega) (by omega), hl1, hl2]
  have hle := cell_swap_le p s x y s.length
  have hne : cell (p ++ x :: y :: s) (p ++ y :: x :: s)
      (p.length + 2 + s.length) (p.length + 2 + s.length) ≠ 0 := by
    intro h0
    have h := (cell_eq_zero _ _ _ _ _ (Nat.le_refl _) h0).2 p.length (by omega)
    have a0 : charAt (p ++ x :: y :: s) p.length = x := charAt_append_right p _ 0
    have b0 : charAt (p ++ y :: x :: s) p.length = y := charAt_append_right p _ 0
    rw [a0, b0] at h
    exact hxy h
  refine congrArg some ?_
  omega

/-- The spec's instance of claim C9: `dist("ab", "ba") = 1`. -/
theorem dist_adjacent_swap_ab :
    ([] : Str).length + 2 + ([] : Str).length < 2147483647 ∧ (0x61 : Byte) ≠ 0x62 ∧
      dist [0x61, 0x62] [0x62, 0x61] = some 1 :=
  ⟨by decide, by decide, dist_adjacent_swap [] [] 0x61 0x62 (by decide) (by decide)⟩

/-- Claim C10 as stated fails: `Name::dist("ca", "abc")` is not 2. -/
theorem dist_ca_abc_ne_two : dist [0x63, 0x61] [0x61, 0x62, 0x63] ≠ some 2 := by
  decide

/-- Claim C10, amended: `Name::dist("ca", "abc") = 3`, the value of the
restricted recurrence (no edit may touch a transposed pair again). -/
theorem dist_ca_abc : dist [0x63, 0x61] [0x61, 0x62, 0x63] = some 3 := by
  decide

/-! ## The claims about `Name::deaccent` -/

/-- Claim C2 at its failing input, the bytes `c5 bc cc a7` (z with dot above,
then a combining cedilla): the first call returns `7a cc a7`, and a second
call on that result returns `7a`, so `deaccent` is not idempotent there. -/
theorem deaccent_twice_differs (k : Nat) :
    deaccent (2 + k) [0xc5, 0xbc, 0xcc, 0xa7] = some [0x7a, 0xcc, 0xa7] ∧
      deaccent (2 + k) [0x7a, 0xcc, 0xa7] = some [0x7a] :=
  ⟨deaccentPairs_mono 2 m_diacritic _ _ (by rw [m_diacritic_eq]; decide!) k,
    deaccentPairs_mono 2 m_diacritic _ _ (by rw [m_diacritic_eq]; decide!) k⟩

/-- Claim C3 at its failing input, the bytes `c5 bb cc a7` (Z with dot above,
then a combining cedilla): the result `5a cc a7` is itself a key of the table. -/
theorem deaccent_leaves_key (k : Nat) :
    deaccent (2 + k) [0xc5, 0xbb, 0xcc, 0xa7] = some [0x5a, 0xcc, 0xa7] ∧
      ([0x5a, 0xcc, 0xa7], [0x5a]) ∈ m_diacritic :=
  ⟨deaccentPairs_mono 2 m_diacritic _ _ (by rw [m_diacritic_eq]; decide!) k,
    by rw [m_diacritic_eq]; decide!⟩

/-- Claim C4: for every string `s` with `Name::isroman(s)` true, the call
`deaccent(s)` returns `s` itself (each inner loop exits at its first test). -/
theorem deaccent_of_isroman (s : Str) (h : isroman s = true) (fuel : Nat) :
    deaccent (fuel + 1) s = some s := by
  apply deaccentPairs_of_absent
  intro kv hkv
  have h1 := List.all_eq_true.1 m_diacritic_high kv hkv
  obtain ⟨x, hx, hx2⟩ := List.any_eq_true.1 h1
  refine ⟨x, hx, ?_⟩
  intro hmem
  have h2 := isroman_bound s h x hmem
  have h3 : 128 ≤ x.val := of_decide_eq_true hx2
  omega

/-- An instance of claim C4: the printable string "Muller". -/
theorem deaccent_of_isroman_muller :
    isroman [0x4d, 0x75, 0x6c, 0x6c, 0x65, 0x72] = true ∧
      deaccent 1 [0x4d, 0x75, 0x6c, 0x6c, 0x65, 0x72]
        = some [0x4d, 0x75, 0x6c, 0x6c, 0x65, 0x72] :=
  ⟨by decide, deaccent_of_isroman _ (by decide) 0⟩

/-! ## More claims about `Name::dist` -/

/-- Claim C11: `Name::dist` is not a metric: the triangle inequality fails for
`a = "ca"`, `b = "ac"`, `c = "abc"`, where `dist(a, c) = 3` exceeds
`dist(a, b) + dist(b, c) = 1 + 1`. -/
theorem dist_triangle_fails : ∃ (a b c : Str) (u v w : Nat),
    dist a b = some u ∧ dist b c = some v ∧ dist a c = some w ∧ u + v < w :=
  ⟨[0x63, 0x61], [0x61, 0x63], [0x61, 0x62, 0x63], 1, 1, 3,
    by decide, by decide, by decide, by decide⟩

theorem charAt_eq_getElem (s : Str) {k : Nat} (h : k < s.length) : charAt s k = s[k] :=
  List.getD_eq_getElem s 0 h

/-- Claim C19 as stated fails on the empty string and a string of `2^32`
bytes: both sizes narrow to 0 and `Name::dist` returns 0 for two different
strings. -/
theorem dist_zero_of_distinct :
    dist [] (List.replicate 4294967296 0) = some 0 ∧
      ([] : Str) ≠ List.replicate 4294967296 0 := by
  constructor
  · exact (dist_wrapped_empty _ (by rw [List.length_replicate])).1
  · intro h
    have h2 := congrArg List.length h
    rw [List.length_replicate, List.length_nil] at h2
    omega

/-- Claim C19, amended: `Name::dist` separates distinct strings of fewer than
`2^32` bytes: for such `a` and `b`, if `dist(a, b) = 0` then `a = b`. -/
theorem dist_eq_zero (a b : Str) (ha : a.length < 4294967296) (hb : b.length < 4294967296)
    (h : dist a b = some 0) : a = b := by
  obtain ⟨_, _, hv⟩ := dist_some_elim h
  rw [Nat.mod_eq_of_lt ha, Nat.mod_eq_of_lt hb] at hv
  obtain ⟨hl, hc⟩ := cell_eq_zero a b _ _ _ (Nat.le_refl _) hv.symm
  apply List.ext_getElem hl
  intro n h1 h2
  rw [← charAt_eq_getElem a h1, ← charAt_eq_getElem b h2]
  exact hc n h1

/-- An instance of the amended claim C19: the strings "ab" and "ab". -/
theorem dist_eq_zero_ab :
    ([0x61, 0x62] : Str).length < 4294967296 ∧
      dist [0x61, 0x62] [0x61, 0x62] = some 0 ∧ ([0x61, 0x62] : Str) = [0x61, 0x62] :=
  ⟨by decide, by decide,
    dist_eq_zero [0x61, 0x62] [0x61, 0x62] (by decide) (by decide) (by decide)⟩

/-! ## The claims about the tables of `Name::setup` -/

theorem strLt_single (c b : Byte) :
    (!strLt [c] [b] && !strLt [b] [c]) = decide (c = b) := by
  by_cases e : c = b
  · subst e
    simp [strLt]
  · have h : c < b ∨ b < c := by
      rcases Nat.lt_trichotomy c.val b.val with h | h | h
      · exact Or.inl h
      · exact absurd (Fin.ext h) e
      · exact Or.inr h
    rcases h with h | h
    · simp [strLt, h, e]
    · have h2 : ¬ c < b := fun h3 => absurd (Fin.lt_trans h h3) (Fin.lt_irrefl _)
      simp [strLt, h, h2, e]

/-- The lookup of a one-character string in a table of one-character keys,
each mapped to a backslash followed by the key. -/
theorem mapFind_singles (c : Byte) : ∀ table : List (Str × Str),
    table.all escapePairOk = true →
    (match mapFind table [c] with
      | some v => v
      | none => [c])
      = if c ∈ table.map (fun kv => kv.1.headD 0) then [0x5c, c] else [c] := by
  intro table
  induction table with
  | nil => intro _; rfl
  | cons kv rest ih =>
    intro h
    simp only [List.all_cons, Bool.and_eq_true] at h
    obtain ⟨k, v⟩ := kv
    have hk : ∃ b, k = [b] ∧ v = [0x5c, b] := by
      have h1 := h.1
      unfold escapePairOk at h1
      split at h1
      · rename_i b x y heq
        simp only [Bool.and_eq_true, beq_iff_eq] at h1
        simp only [Prod.mk.injEq] at heq
        exact ⟨b, heq.1, by rw [heq.2, h1.1, h1.2]⟩
      · exact absurd h1 (by simp)
    obtain ⟨b, rfl, rfl⟩ := hk
    simp only [mapFind, strLt_single, List.map_cons, List.headD_cons, List.mem_cons]
    by_cases e : c = b
    · subst e
      simp
    · simp only [e, decide_False, Bool.false_eq_true, if_false, false_or]
      exact ih h.2

theorem m_escape_pairs : m_escape.all escapePairOk = true := by
  decide

theorem m_escape_keys :
    (m_escape.map (fun kv => kv.1.headD 0)).all (fun x => decide (x ∈ patternSpecial)) = true
      ∧ patternSpecial.all
        (fun x => decide (x ∈ m_escape.map (fun kv => kv.1.headD 0))) = true := by
  constructor <;> decide!

theorem escape_char_eq : ∀ c : Byte,
    (match mapFind m_escape [c] with
      | some v => v
      | none => [c]) = escapeCharSpec c := by
  intro c
  rw [mapFind_singles c m_escape m_escape_pairs]
  unfold escapeCharSpec
  have h1 := List.all_eq_true.1 m_escape_keys.1
  have h2 := List.all_eq_true.1 m_escape_keys.2
  by_cases hc : c ∈ patternSpecial
  · rw [if_pos hc, if_pos (of_decide_eq_true (h2 c hc))]
  · have hc2 : ¬ c ∈ m_escape.map (fun kv => kv.1.headD 0) :=
      fun h => hc (of_decide_eq_true (h1 c h))
    rw [if_neg hc, if_neg hc2]

theorem escape_foldl (s : Str) : ∀ acc : Str,
    s.foldl (fun retVal c =>
      retVal ++ (match mapFind m_escape [c] with
        | some v => v
        | none => [c])) acc = acc ++ escapeSpec s := by
  induction s with
  | nil => intro acc; simp [escapeSpec]
  | cons c cs ih =>
    intro acc
    rw [List.foldl_cons, ih, escape_char_eq c]
    simp [escapeSpec, List.append_assoc]

/-- Claim C13: for every string `s`, `Name::escape(s)` is the concatenation, in
order, over the characters `c` of `s` of a backslash followed by `c` when `c`
is one of the 20 pattern-special characters and of `c` itself otherwise; in
particular `escape("a.b*c")` is `a\.b\*c`. -/
theorem escape_eq_spec (s : Str) :
    escape s = escapeSpec s ∧
      escape [0x61, 0x2e, 0x62, 0x2a, 0x63] = [0x61, 0x5c, 0x2e, 0x62, 0x5c, 0x2a, 0x63] := by
  refine ⟨?_, by decide⟩
  unfold escape
  rw [escape_foldl s []]
  rfl

theorem m_diacritic_wellformed :
    m_diacritic.all (fun kv =>
      decide (2 ≤ kv.1.length) && decide (kv.1.length ≤ 4) && !(kv.1 == kv.2)
        && (kv.2.length == 1 || kv.2.length == 2)
        && kv.2.all (fun x => decide (32 ≤ x.val) && decide (x.val ≤ 126))) = true := by
  rw [m_diacritic_eq]
  decide!

/-- Claim C16: every pair of the diacritic table built by `Name::setup` is well
formed: the key is 2 to 4 bytes long and differs from its replacement, and the
replacement is 1 or 2 bytes long, each byte in the printable range [32,126]. -/
theorem m_diacritic_pairs_ok (kv : Str × Str) (h : kv ∈ m_diacritic) :
    2 ≤ kv.1.length ∧ kv.1.length ≤ 4 ∧ kv.1 ≠ kv.2
      ∧ (kv.2.length = 1 ∨ kv.2.length = 2)
      ∧ ∀ x ∈ kv.2, 32 ≤ x.val ∧ x.val ≤ 126 := by
  have h1 := List.all_eq_true.1 m_diacritic_wellformed kv h
  simp only [Bool.and_eq_true, Bool.or_eq_true, Bool.not_eq_true', beq_eq_false_iff_ne,
    beq_iff_eq, decide_eq_true_eq, List.all_eq_true] at h1
  exact ⟨h1.1.1.1.1, h1.1.1.1.2, h1.1.1.2, h1.1.2, h1.2⟩

/-- An instance of claim C16: the pair that folds the sharp s to "ss". -/
theorem m_diacritic_pairs_ok_sharp_s :
    (([0xc3, 0x9f], [0x73, 0x73]) : Str × Str) ∈ m_diacritic ∧
      (2 ≤ ([0xc3, 0x9f] : Str).length ∧ ([0xc3, 0x9f] : Str).length ≤ 4
        ∧ ([0xc3, 0x9f] : Str) ≠ [0x73, 0x73]
        ∧ (([0x73, 0x73] : Str).length = 1 ∨ ([0x73, 0x73] : Str).length = 2)
        ∧ ∀ x ∈ ([0x73, 0x73] : Str), 32 ≤ x.val ∧ x.val ≤ 126) :=
  ⟨by rw [m_diacritic_eq]; decide!,
    m_diacritic_pairs_ok ([0xc3, 0x9f], [0x73, 0x73]) (by rw [m_diacritic_eq]; decide!)⟩

/-! ## The claim about `Name::denewln` -/

/-- Claim C17 at its failing inputs: of two adjacent newlines, and of a
carriage return followed by a newline, `denewln` removes only the first, so
its result still holds a newline. -/
theorem denewln_keeps_newline :
    denewln [0x0a, 0x0a] = [0x0a] ∧ denewln [0x0d, 0x0a] = [0x0a] := by
  constructor <;> simp [denewln, denewlnLoop, charAt]

/-! ## Termination of the loops of `Name::deaccent` -/

theorem isPrefixOf_eq_append : ∀ (key l : Str), key.isPrefixOf l = true →
    l = key ++ l.drop key.length := by
  intro key
  induction key with
  | nil => intro l _; rfl
  | cons k ks ih =>
    intro l h
    cases l with
    | nil => simp [List.isPrefixOf] at h
    | cons c cs =>
      simp only [List.isPrefixOf, Bool.and_eq_true, beq_iff_eq] at h
      have e := ih cs h.2
      simp only [List.length_cons, List.drop_succ_cons, List.cons_append]
      rw [← e, h.1]

theorem isPrefixOf_append_self : ∀ (key l : Str), key.isPrefixOf (key ++ l) = true := by
  intro key
  induction key with
  | nil => intro l; simp [List.isPrefixOf]
  | cons k ks ih => intro l; simp [List.isPrefixOf, ih l]

/-- What `findFrom` returns: the first offset at which the key begins. -/
theorem findFrom_some (key : Str) : ∀ (l : Str) (q p : Nat), findFrom key l q = some p →
    ∃ n, p = q + n ∧ n ≤ l.length ∧ key.isPrefixOf (l.drop n) = true ∧
      ∀ j, j < n → key.isPrefixOf (l.drop j) = false := by
  intro l
  induction l with
  | nil =>
    intro q p h
    unfold findFrom at h
    split at h
    · rename_i hp
      refine ⟨0, ?_, Nat.le_refl _, hp, fun j hj => absurd hj (Nat.not_lt_zero j)⟩
      simp only [Option.some.injEq] at h
      omega
    · exact absurd h (by simp)
  | cons c cs ih =>
    intro q p h
    unfold findFrom at h
    split at h
    · rename_i hp
      refine ⟨0, ?_, Nat.zero_le _, hp, fun j hj => absurd hj (Nat.not_lt_zero j)⟩
      simp only [Option.some.injEq] at h
      omega
    · rename_i hp
      obtain ⟨n, e, hn, hpre, hmin⟩ := ih (q + 1) p h
      refine ⟨n + 1, by omega, by simp only [List.length_cons]; omega, hpre, ?_⟩
      intro j hj
      cases j with
      | zero => exact Bool.eq_false_iff.2 hp
      | succ j => exact hmin j (by omega)

theorem findFrom_none (key : Str) : ∀ (l : Str) (q : Nat), findFrom key l q = none →
    ∀ j, j ≤ l.length → key.isPrefixOf (l.drop j) = false := by
  intro l
  induction l with
  | nil =>
    intro q h j hj
    unfold findFrom at h
    split at h
    · exact absurd h (by simp)
    · rename_i hp
      have e : j = 0 := by simpa using hj
      subst e
      exact Bool.eq_false_iff.2 hp
  | cons c cs ih =>
    intro q h j hj
    unfold findFrom at h
    split at h
    · exact absurd h (by simp)
    · rename_i hp
      cases j with
      | zero => exact Bool.eq_false_iff.2 hp
      | succ j =>
        exact ih (q + 1) h j (by simp only [List.length_cons] at hj; omega)

/-- What `str.find(key, pos)` returns when it is not `npos`. -/
theorem find_some {str key : Str} {pos p : Nat} (h : find str key pos = some p) :
    pos ≤ p ∧ p ≤ str.length ∧ key.isPrefixOf (str.drop p) = true ∧
      ∀ j, pos ≤ j → j < p → key.isPrefixOf (str.drop j) = false := by
  unfold find at h
  split at h
  · rename_i hle
    obtain ⟨n, e, hn, hpre, hmin⟩ := findFrom_some key _ _ _ h
    rw [List.length_drop] at hn
    rw [List.drop_drop] at hpre
    refine ⟨by omega, by omega, by rw [e]; exact hpre, ?_⟩
    intro j hj1 hj2
    have h2 := hmin (j - pos) (by omega)
    rw [List.drop_drop] at h2
    have e2 : pos + (j - pos) = j := by omega
    rw [e2] at h2
    exact h2
  · exact absurd h (by simp)

theorem find_none {str key : Str} {pos : Nat} (hpos : pos ≤ str.length)
    (h : find str key pos = none) :
    ∀ j, pos ≤ j → j ≤ str.length → key.isPrefixOf (str.drop j) = false := by
  unfold find at h
  rw [if_pos hpos] at h
  intro j hj1 hj2
  have h2 := findFrom_none key _ _ h (j - pos) (by rw [List.length_drop]; omega)
  rw [List.drop_drop] at h2
  have e2 : pos + (j - pos) = j := by omega
  rw [e2] at h2
  exact h2

/-- A string in which the key begins at `p`, cut at the occurrence. -/
theorem split_at_occurrence {str key : Str} {p : Nat}
    (h : key.isPrefixOf (str.drop p) = true) :
    str = str.take p ++ (key ++ str.drop (p + key.length)) := by
  have e := isPrefixOf_eq_append key _ h
  rw [List.drop_drop] at e
  rw [← e, List.take_append_drop]

theorem countHigh_append (a b : Str) : countHigh (a ++ b) = countHigh a + countHigh b :=
  List.countP_append _ a b

theorem countHigh_pos {key : Str} (h : ∃ x ∈ key, 128 ≤ x.val) : 0 < countHigh key := by
  obtain ⟨x, hx, hx2⟩ := h
  exact List.countP_pos_iff.2 ⟨x, hx, by simpa using hx2⟩

/-- A replacement by ASCII text of a key that holds a byte outside ASCII
lowers the number of such bytes. -/
theorem countHigh_replaceAt {str key val : Str} {p : Nat}
    (h : key.isPrefixOf (str.drop p) = true) (hk : ∃ x ∈ key, 128 ≤ x.val)
    (hv : countHigh val = 0) :
    countHigh (replaceAt str p key.length val) < countHigh str := by
  have e := split_at_occurrence h
  have hp := countHigh_pos hk
  have c1 : countHigh str = countHigh (str.take p) + (countHigh key
      + countHigh (str.drop (p + key.length))) := by
    conv => lhs; rw [e]
    rw [countHigh_append, countHigh_append]
  unfold replaceAt
  rw [countHigh_append, countHigh_append, hv, c1]
  omega

theorem deaccentLoop_total {key val : Str} (hk : ∃ x ∈ key, 128 ≤ x.val)
    (hv : countHigh val = 0) : ∀ (n : Nat) (str : Str) (pos fuel : Nat),
    countHigh str ≤ n → n < fuel →
    ∃ r, deaccentLoop fuel key val str pos = some r ∧ countHigh r ≤ countHigh str := by
  intro n
  induction n with
  | zero =>
    intro str pos fuel hc hf
    obtain ⟨f, rfl⟩ : ∃ f, fuel = f + 1 := ⟨fuel - 1, by omega⟩
    unfold deaccentLoop
    split
    · exact ⟨str, rfl, Nat.le_refl _⟩
    · rename_i p hfind
      have h1 := countHigh_replaceAt (find_some hfind).2.2.1 hk hv
      omega
  | succ n ih =>
    intro str pos fuel hc hf
    obtain ⟨f, rfl⟩ : ∃ f, fuel = f + 1 := ⟨fuel - 1, by omega⟩
    unfold deaccentLoop
    split
    · exact ⟨str, rfl, Nat.le_refl _⟩
    · rename_i p hfind
      have h1 := countHigh_replaceAt (find_some hfind).2.2.1 hk hv
      obtain ⟨r, hr, hr2⟩ := ih (replaceAt str p key.length val) p f (by omega) (by omega)
      exact ⟨r, hr, by omega⟩

theorem deaccentPairs_total : ∀ (table : List (Str × Str)),
    (∀ kv ∈ table, (∃ x ∈ kv.1, 128 ≤ x.val) ∧ countHigh kv.2 = 0) →
    ∀ (str : Str) (fuel : Nat), countHigh str < fuel →
    ∃ r, deaccentPairs fuel table str = some r ∧ countHigh r ≤ countHigh str := by
  intro table
  induction table with
  | nil => intro _ str fuel _; exact ⟨str, rfl, Nat.le_refl _⟩
  | cons kv rest ih =>
    intro h str fuel hf
    obtain ⟨key, val⟩ := kv
    have hkv := h (key, val) (List.mem_cons_self _ _)
    obtain ⟨r1, hr1, hc1⟩ := deaccentLoop_total hkv.1 hkv.2 (countHigh str) str 0 fuel
      (Nat.le_refl _) hf
    obtain ⟨r, hr, hc⟩ := ih (fun kv hkv => h kv (List.mem_cons_of_mem _ hkv)) r1 fuel
      (by omega)
    refine ⟨r, ?_, by omega⟩
    unfold deaccentPairs
    rw [hr1]
    exact hr

/-- Every replacement of the table is ASCII text. -/
theorem m_diacritic_ascii : m_diacritic.all (fun kv => countHigh kv.2 == 0) = true := by
  rw [m_diacritic_eq]
  decide!

theorem m_diacritic_shape :
    ∀ kv ∈ m_diacritic, (∃ x ∈ kv.1, 128 ≤ x.val) ∧ countHigh kv.2 = 0 := by
  intro kv hkv
  constructor
  · have h1 := List.all_eq_true.1 m_diacritic_high kv hkv
    obtain ⟨x, hx, hx2⟩ := List.any_eq_true.1 h1
    exact ⟨x, hx, of_decide_eq_true hx2⟩
  · have h1 := List.all_eq_true.1 m_diacritic_ascii kv hkv
    simpa using h1

theorem countHigh_le_length (s : Str) : countHigh s ≤ s.length :=
  List.countP_le_length _

/-- Claim C12: `Name::deaccent` is total: for every byte string `s` the loop of
every table pair exits (each replacement removes a byte outside ASCII and
inserts none), so with `|s| + 1` or more tests allowed per pair `deaccent(s)`
returns a string. -/
theorem deaccent_total (s : Str) (k : Nat) : ∃ t, deaccent (s.length + 1 + k) s = some t := by
  have h := countHigh_le_length s
  obtain ⟨r, hr, _⟩ := deaccentPairs_total m_diacritic m_diacritic_shape s
    (s.length + 1 + k) (by omega)
  exact ⟨r, hr⟩

/-! ## `Name::split` followed by `Name::concat` -/

theorem mayMatch_of_isPrefixOf : ∀ (k2 t v : Str), (∀ x ∈ v, x.val < 128) →
    k2.isPrefixOf (t ++ v) = true → mayMatch k2 t = true := by
  intro k2
  induction k2 with
  | nil => intro t v _ _; cases t <;> rfl
  | cons a as ih =>
    intro t v hv h
    cases t with
    | nil =>
      simp only [mayMatch, List.all_eq_true, decide_eq_true_eq]
      intro x hx
      exact hv x (mem_of_isPrefixOf (a :: as) v h hx)
    | cons b bs =>
      cases hv2 : v with
      | nil =>
        subst hv2
        simp only [List.cons_append, List.isPrefixOf, Bool.and_eq_true, beq_iff_eq] at h
        simp only [mayMatch, Bool.and_eq_true, beq_iff_eq]
        exact ⟨h.1, ih bs [] (fun x hx => absurd hx (List.not_mem_nil x)) h.2⟩
      | cons c cs =>
        subst hv2
        simp only [List.cons_append, List.isPrefixOf, Bool.and_eq_true, beq_iff_eq] at h
        simp only [mayMatch, Bool.and_eq_true, beq_iff_eq]
        exact ⟨h.1, ih bs (c :: cs) hv h.2⟩

theorem canStart_of_isPrefixOf (k v : Str) (hv : ∀ x ∈ v, x.val < 128) :
    ∀ (u k2 : Str), (∀ x ∈ u, x.val < 128) →
    k2.isPrefixOf (u ++ (k ++ v)) = true → canStart k k2 = true := by
  intro u
  induction u with
  | nil =>
    intro k2 _ h
    have h2 := mayMatch_of_isPrefixOf k2 k v hv h
    cases k2 with
    | nil => rfl
    | cons a as => simp only [canStart, h2, Bool.true_or]
  | cons c cs ih =>
    intro k2 hu h
    cases k2 with
    | nil => rfl
    | cons a as =>
      simp only [List.cons_append, List.isPrefixOf, Bool.and_eq_true, beq_iff_eq] at h
      have h3 := ih as (fun x hx => hu x (List.mem_cons_of_mem _ hx)) h.2
      have h4 : a.val < 128 := by rw [h.1]; exact hu c (List.mem_cons_self _ _)
      simp only [canStart, h3, h4, decide_True, Bool.and_self, Bool.or_true]

theorem noTailMatch_drop (k2 : Str) : ∀ (k : Str) (m : Nat), noTailMatch k2 k = true →
    mayMatch k2 (k.drop m) = false := by
  intro k
  induction k with
  | nil =>
    intro m h
    simp only [noTailMatch, Bool.not_eq_true'] at h
    simpa using h
  | cons b bs ih =>
    intro m h
    simp only [noTailMatch, Bool.and_eq_true, Bool.not_eq_true'] at h
    cases m with
    | zero => simpa using h.1
    | succ m => simpa using ih m h.2

/-- A key that is clear of `k` begins at no position of `u ++ k ++ v`. -/
theorem clearOf_no_occurrence {k2 k : Str} (hc : clearOf k2 k = true) (u v : Str)
    (hu : ∀ x ∈ u, x.val < 128) (hv : ∀ x ∈ v, x.val < 128) (j : Nat) :
    k2.isPrefixOf ((u ++ (k ++ v)).drop j) = false := by
  simp only [clearOf, Bool.and_eq_true, Bool.not_eq_true'] at hc
  apply Bool.eq_false_iff.2
  intro h
  by_cases hj : j ≤ u.length
  · rw [List.drop_append_of_le_length hj] at h
    have h2 := canStart_of_isPrefixOf k v hv (u.drop j) k2
      (fun x hx => hu x (List.mem_of_mem_drop hx)) h
    rw [hc.1] at h2
    exact absurd h2 (by simp)
  · have e : j = u.length + (j - u.length) := by omega
    rw [e, ← List.drop_drop, List.drop_left] at h
    by_cases hj2 : j - u.length ≤ k.length
    · rw [List.drop_append_of_le_length hj2] at h
      have h2 := mayMatch_of_isPrefixOf k2 _ v hv h
      rw [noTailMatch_drop k2 k _ hc.2] at h2
      exact absurd h2 (by simp)
    · have e2 : j - u.length = k.length + (j - u.length - k.length) := by omega
      rw [e2, ← List.drop_drop, List.drop_left] at h
      have h3 : k2.isPrefixOf ([] ++ v.drop (j - u.length - k.length)) = true := h
      have h2 := mayMatch_of_isPrefixOf k2 [] _
        (fun x hx => hv x (List.mem_of_mem_drop hx)) h3
      have h4 := noTailMatch_drop k2 k k.length hc.2
      rw [List.drop_length] at h4
      rw [h4] at h2
      exact absurd h2 (by simp)

theorem findFrom_eq_none_of (key : Str) : ∀ (l : Str) (q : Nat),
    (∀ j, key.isPrefixOf (l.drop j) = false) → findFrom key l q = none := by
  intro l
  induction l with
  | nil =>
    intro q h
    unfold findFrom
    have h0 := h 0
    rw [List.drop_zero] at h0
    rw [h0]
    rfl
  | cons c cs ih =>
    intro q h
    unfold findFrom
    have h0 := h 0
    rw [List.drop_zero] at h0
    rw [h0]
    simp only [Bool.false_eq_true, if_false]
    exact ih (q + 1) (fun j => by simpa using h (j + 1))

/-- The key itself is first found right after `u`. -/
theorem findFrom_self {k : Str} (hs : selfClear k = true) (v : Str)
    (hv : ∀ x ∈ v, x.val < 128) : ∀ (u : Str) (q : Nat), (∀ x ∈ u, x.val < 128) →
    findFrom k (u ++ (k ++ v)) q = some (q + u.length) := by
  intro u
  induction u with
  | nil =>
    intro q _
    have h := isPrefixOf_append_self k v
    cases hkv : k ++ v with
    | nil =>
      rw [hkv] at h
      simp only [List.nil_append, hkv, findFrom, h, if_true, List.length_nil, Nat.add_zero]
    | cons c cs =>
      rw [hkv] at h
      simp only [List.nil_append, hkv, findFrom, h, if_true, List.length_nil, Nat.add_zero]
  | cons c cs ih =>
    intro q hu
    have hno : k.isPrefixOf (c :: (cs ++ (k ++ v))) = false := by
      apply Bool.eq_false_iff.2
      intro h
      cases k with
      | nil => simp [selfClear] at hs
      | cons a as =>
        simp only [List.isPrefixOf, Bool.and_eq_true, beq_iff_eq] at h
        have h3 := canStart_of_isPrefixOf (a :: as) v hv cs as
          (fun x hx => hu x (List.mem_cons_of_mem _ hx)) h.2
        have h4 : a.val < 128 := by rw [h.1]; exact hu c (List.mem_cons_self _ _)
        simp [selfClear, h3, h4] at hs
    show findFrom k (c :: (cs ++ (k ++ v))) q = some (q + (cs.length + 1))
    rw [findFrom, hno]
    simp only [Bool.false_eq_true, if_false]
    rw [ih (q + 1) (fun x hx => hu x (List.mem_cons_of_mem _ hx))]
    congr 1
    omega

theorem ascii_of_countHigh {r : Str} (h : countHigh r = 0) : ∀ x ∈ r, x.val < 128 := by
  intro x hx
  have h2 := (List.countP_eq_zero.1 h) x hx
  simpa using h2

theorem find_eq_none_of_absent {key str : Str} {x : Byte} (hx : x ∈ key) (hn : x ∉ str)
    (pos : Nat) : find str key pos = none := by
  unfold find
  split
  · exact findFrom_eq_none hx _ pos (fun h => hn (List.mem_of_mem_drop h))
  · rfl

theorem not_mem_of_ascii {s : Str} (hs : ∀ x ∈ s, x.val < 128) {x : Byte}
    (hx : 128 ≤ x.val) : x ∉ s := by
  intro h
  have := hs x h
  omega

/-- The loop of the pair `(k, r)` on `u ++ k ++ v` replaces the one
occurrence and exits at its second test. -/
theorem deaccentLoop_self {k r : Str} (hs : selfClear k = true)
    (hk : ∃ x ∈ k, 128 ≤ x.val) (hr : ∀ x ∈ r, x.val < 128) (u v : Str)
    (hu : ∀ x ∈ u, x.val < 128) (hv : ∀ x ∈ v, x.val < 128) (fuel : Nat) :
    deaccentLoop (fuel + 2) k r (u ++ (k ++ v)) 0 = some (u ++ (r ++ v)) := by
  have h1 : find (u ++ (k ++ v)) k 0 = some u.length := by
    unfold find
    rw [if_pos (Nat.zero_le _), List.drop_zero, findFrom_self hs v hv u 0 hu, Nat.zero_add]
  have h2 : replaceAt (u ++ (k ++ v)) u.length k.length r = u ++ (r ++ v) := by
    unfold replaceAt
    rw [List.take_left, ← List.drop_drop, List.drop_left, List.drop_left, List.append_assoc]
  obtain ⟨x, hx, hx2⟩ := hk
  have hall : ∀ y ∈ u ++ (r ++ v), y.val < 128 := by
    intro y hy
    rcases List.mem_append.1 hy with h | h
    · exact hu y h
    · rcases List.mem_append.1 h with h | h
      · exact hr y h
      · exact hv y h
  have h3 : find (u ++ (r ++ v)) k u.length = none :=
    find_eq_none_of_absent hx (not_mem_of_ascii hall hx2) _
  have e : fuel + 2 = (fuel + 1) + 1 := rfl
  rw [e]
  unfold deaccentLoop
  rw [h1]
  simp only
  rw [h2]
  unfold deaccentLoop
  rw [h3]

/-- On a table that passes `tableClear`, the text `u ++ k ++ v` is folded to
`u ++ r ++ v` for every pair `(k, r)` of the table. -/
theorem deaccentPairs_single {k r : Str} (u v : Str) (hu : ∀ x ∈ u, x.val < 128)
    (hv : ∀ x ∈ v, x.val < 128) (hs : selfClear k = true) (fuel : Nat) :
    ∀ table : List (Str × Str), (table.map Prod.fst).Nodup → (k, r) ∈ table →
    (∀ kv ∈ table, kv.1 ≠ k → clearOf kv.1 k = true) →
    (∀ kv ∈ table, (∃ x ∈ kv.1, 128 ≤ x.val) ∧ countHigh kv.2 = 0) →
    deaccentPairs (fuel + 2) table (u ++ (k ++ v)) = some (u ++ (r ++ v)) := by
  intro table
  induction table with
  | nil => intro _ hmem; exact absurd hmem (List.not_mem_nil _)
  | cons kv rest ih =>
    intro hnd hmem hclear hshape
    obtain ⟨k2, r2⟩ := kv
    simp only [List.map_cons, List.nodup_cons] at hnd
    rcases List.mem_cons.1 hmem with he | hin
    · have e1 : k = k2 := congrArg Prod.fst he
      have e2 : r = r2 := congrArg Prod.snd he
      subst e1; subst e2
      have hkr := hshape (k, r) (List.mem_cons_self _ _)
      have hr := ascii_of_countHigh hkr.2
      unfold deaccentPairs
      rw [deaccentLoop_self hs hkr.1 hr u v hu hv fuel]
      simp only
      apply deaccentPairs_of_absent
      intro kv hkv
      obtain ⟨x, hx, hx2⟩ := (hshape kv (List.mem_cons_of_mem _ hkv)).1
      refine ⟨x, hx, not_mem_of_ascii ?_ hx2⟩
      intro y hy
      rcases List.mem_append.1 hy with h | h
      · exact hu y h
      · rcases List.mem_append.1 h with h | h
        · exact hr y h
        · exact hv y h
    · have hne : k2 ≠ k := by
        intro e
        apply hnd.1
        rw [e]
        exact List.mem_map.2 ⟨(k, r), hin, rfl⟩
      have hc := hclear (k2, r2) (List.mem_cons_self _ _) hne
      have hfind : find (u ++ (k ++ v)) k2 0 = none := by
        unfold find
        rw [if_pos (Nat.zero_le _), List.drop_zero]
        exact findFrom_eq_none_of k2 _ 0 (fun j => clearOf_no_occurrence hc u v hu hv j)
      have e : fuel + 2 = (fuel + 1) + 1 := rfl
      unfold deaccentPairs
      have hloop : deaccentLoop (fuel + 2) k2 r2 (u ++ (k ++ v)) 0 = some (u ++ (k ++ v)) := by
        rw [e]
        unfold deaccentLoop
        rw [hfind]
      rw [hloop]
      exact ih hnd.2 hin (fun kv hkv => hclear kv (List.mem_cons_of_mem _ hkv))
        (fun kv hkv => hshape kv (List.mem_cons_of_mem _ hkv))

theorem chain_of_increasing : ∀ l : List Nat, increasing l = true →
    l.Chain' (fun a b => a < b) := by
  intro l
  induction l with
  | nil => intro _; exact List.chain'_nil
  | cons a t ih =>
    intro h
    cases t with
    | nil => exact List.chain'_singleton a
    | cons b rest =>
      simp only [increasing, Bool.and_eq_true, decide_eq_true_eq] at h
      exact List.chain'_cons.2 ⟨h.1, ih h.2⟩

theorem diacriticOrdered_codes :
    increasing (diacriticOrdered.map (fun kv => keyCode kv.1)) = true := by
  decide!

/-- The keys of the table are distinct: their codes grow along the table. -/
theorem m_diacritic_nodup : (m_diacritic.map Prod.fst).Nodup := by
  rw [m_diacritic_eq]
  have h1 := List.chain'_iff_pairwise.1 (chain_of_increasing _ diacriticOrdered_codes)
  have h2 : (diacriticOrdered.map (fun kv => keyCode kv.1)).Nodup :=
    h1.imp (fun h => Nat.ne_of_lt h)
  have e : diacriticOrdered.map (fun kv => keyCode kv.1)
      = (diacriticOrdered.map Prod.fst).map keyCode := by
    rw [List.map_map]
    rfl
  rw [e] at h2
  exact List.Nodup.of_map keyCode h2

/-- Two different keys that are each one multi-byte sequence: neither occurs
in `u ++ k ++ v` around the other. -/
theorem clearOf_of_utf8 {k2 k : Str} (h2 : utf8Key k2 = true) (h : utf8Key k = true)
    (hne : k2 ≠ k) : clearOf k2 k = true := by
  unfold utf8Key at h2 h
  split at h2 <;> split at h <;>
    simp only [Bool.and_eq_true, decide_eq_true_eq, isCont, Bool.false_eq_true] at h2 h
  all_goals
    simp only [clearOf, canStart, mayMatch, noTailMatch, List.all_cons, List.all_nil,
      Bool.and_eq_true, Bool.or_eq_true, Bool.not_eq_true', Bool.and_eq_false_imp,
      Bool.or_eq_false_iff, beq_iff_eq, decide_eq_true_eq, decide_eq_false_iff_not,
      beq_eq_false_iff_ne, Bool.and_true, Bool.true_and, ne_eq, Bool.not_eq_eq_eq_not,
      Bool.not_true, Bool.not_false]
  all_goals simp only [ne_eq, List.cons.injEq, and_true, Fin.ext_iff] at hne ⊢
  all_goals omega

/-- What `tableClear` gives for two pairs of the table. -/
theorem tableClear_spec {table : List (Str × Str)} (h : tableClear table = true)
    {a b : Str × Str} (ha : a ∈ table) (hb : b ∈ table) (hne : b.1 ≠ a.1) :
    selfClear a.1 = true ∧ clearOf b.1 a.1 = true := by
  simp only [tableClear, List.all_eq_true, Bool.and_eq_true, Bool.or_eq_true,
    beq_iff_eq] at h
  refine ⟨(h a ha).1, ?_⟩
  rcases (h a ha).2 with hu | hall
  · rcases (h b hb).2 with hu2 | hall2
    · exact clearOf_of_utf8 hu2 hu hne
    · rcases hall2 a ha with e | e
      · exact absurd e hne
      · exact e.1
  · rcases hall b hb with e | e
    · exact absurd e.symm hne
    · exact e.2

/-- The table of `Name::setup` passes `tableClear`. -/
theorem m_diacritic_clear : tableClear m_diacritic = true := by
  rw [m_diacritic_eq]
  decide!

/-- Claim C14: for every pair `(k, r)` of the diacritic table and all
printable-ASCII strings `u` and `v`, `deaccent(u + k + v) = u + r + v`. -/
theorem deaccent_single_key (kv : Str × Str) (hkv : kv ∈ m_diacritic) (u v : Str)
    (hu : isroman u = true) (hv : isroman v = true) (fuel : Nat) :
    deaccent (fuel + 2) (u ++ kv.1 ++ v) = some (u ++ kv.2 ++ v) := by
  obtain ⟨k, r⟩ := kv
  have hu2 : ∀ x ∈ u, x.val < 128 := fun x hx => by
    have := isroman_bound u hu x hx
    omega
  have hv2 : ∀ x ∈ v, x.val < 128 := fun x hx => by
    have := isroman_bound v hv x hx
    omega
  have hself : selfClear k = true := by
    have hc := m_diacritic_clear
    simp only [tableClear, List.all_eq_true, Bool.and_eq_true] at hc
    exact (hc (k, r) hkv).1
  simp only [List.append_assoc]
  apply deaccentPairs_single u v hu2 hv2 hself fuel m_diacritic m_diacritic_nodup hkv
  · intro kv2 hkv2 hne
    exact (tableClear_spec m_diacritic_clear hkv hkv2 hne).2
  · exact m_diacritic_shape

/-- The spec's instances of claim C14: `deaccent("café") = "cafe"` and
`deaccent("Müller") = "Muller"`. -/
theorem deaccent_single_key_cafe_muller :
    ((([0xc3, 0xa9], [0x65]) : Str × Str) ∈ m_diacritic
      ∧ isroman [0x63, 0x61, 0x66] = true ∧ isroman [] = true
      ∧ deaccent 2 [0x63, 0x61, 0x66, 0xc3, 0xa9] = some [0x63, 0x61, 0x66, 0x65])
    ∧ ((([0xc3, 0xbc], [0x75]) : Str × Str) ∈ m_diacritic
      ∧ isroman [0x4d] = true ∧ isroman [0x6c, 0x6c, 0x65, 0x72] = true
      ∧ deaccent 2 [0x4d, 0xc3, 0xbc, 0x6c, 0x6c, 0x65, 0x72]
        = some [0x4d, 0x75, 0x6c, 0x6c, 0x65, 0x72]) :=
  ⟨⟨by rw [m_diacritic_eq]; decide!, by decide, by decide,
      deaccent_single_key ([0xc3, 0xa9], [0x65]) (by rw [m_diacritic_eq]; decide!)
        [0x63, 0x61, 0x66] [] (by decide) (by decide) 0⟩,
    ⟨by rw [m_diacritic_eq]; decide!, by decide, by decide,
      deaccent_single_key ([0xc3, 0xbc], [0x75]) (by rw [m_diacritic_eq]; decide!)
        [0x4d] [0x6c, 0x6c, 0x65, 0x72] (by decide) (by decide) 0⟩⟩

/-! ## The left-to-right scan -/

theorem scanReplace_nil (key val : Str) (n : Nat) : scanReplace key val n [] = [] := by
  cases n <;> rfl

theorem scanReplace_skip (key val : Str) : ∀ (n : Nat) (l : Str),
    scanReplace key val n l = scanReplace key val 0 (l.drop n) := by
  intro n
  induction n with
  | zero => intro l; rfl
  | succ n ih =>
    intro l
    cases l with
    | nil => rfl
    | cons c cs => exact ih cs

/-- At an occurrence the scan writes the replacement and goes on after the key. -/
theorem scanReplace_match {key : Str} (val : Str) (hk : key ≠ []) {l : Str}
    (h : key.isPrefixOf l = true) :
    scanReplace key val 0 l = val ++ scanReplace key val 0 (l.drop key.length) := by
  have hl : 0 < key.length := List.length_pos.2 hk
  cases l with
  | nil =>
    cases key with
    | nil => exact absurd rfl hk
    | cons a as => simp [List.isPrefixOf] at h
  | cons c cs =>
    have e : (c :: cs).drop key.length = cs.drop (key.length - 1) := by
      obtain ⟨n, hn⟩ : ∃ n, key.length = n + 1 := ⟨key.length - 1, by omega⟩
      rw [hn]
      rfl
    rw [e, ← scanReplace_skip]
    simp only [scanReplace, h, if_true]

theorem scanReplace_step {key : Str} (val : Str) {c : Byte} {cs : Str}
    (h : key.isPrefixOf (c :: cs) = false) :
    scanReplace key val 0 (c :: cs) = c :: scanReplace key val 0 cs := by
  simp only [scanReplace, h, Bool.false_eq_true, if_false]

/-- Where the key begins at none of the first `n` positions the scan copies
them. -/
theorem scanReplace_copy (key val : Str) : ∀ (n : Nat) (l : Str), n ≤ l.length →
    (∀ j, j < n → key.isPrefixOf (l.drop j) = false) →
    scanReplace key val 0 l = l.take n ++ scanReplace key val 0 (l.drop n) := by
  intro n
  induction n with
  | zero => intro l _ _; rfl
  | succ n ih =>
    intro l hn h
    cases l with
    | nil => simp at hn
    | cons c cs =>
      have h0 := h 0 (by omega)
      rw [List.drop_zero] at h0
      rw [scanReplace_step val h0, ih cs (by simpa using hn)
        (fun j hj => by simpa using h (j + 1) (by omega))]
      rfl

theorem scanReplace_id {key : Str} (val : Str) {l : Str} (h : NoOcc key l) :
    scanReplace key val 0 l = l := by
  have h2 := scanReplace_copy key val l.length l (Nat.le_refl _) (fun j _ => h j)
  rw [h2, List.take_length, List.drop_length, scanReplace_nil, List.append_nil]

theorem scanReplace_val {key val rest : Str} (h : NoRematch key val rest) :
    scanReplace key val 0 (val ++ rest) = val ++ scanReplace key val 0 rest := by
  have h2 := scanReplace_copy key val val.length (val ++ rest) (by simp)
    (fun j hj => by
      rw [List.drop_append_of_le_length (by omega)]
      exact h j hj)
  rw [h2, List.take_left, List.drop_left]

theorem safe_after_replace {key val t : Str} (hs : Safe key val t) {j0 : Nat}
    (hm : key.isPrefixOf (t.drop j0) = true) :
    Safe key val (val ++ t.drop (j0 + key.length)) := by
  have hnr := hs j0 hm
  intro j hj
  by_cases hjv : j < val.length
  · rw [List.drop_append_of_le_length (by omega)] at hj
    rw [hnr j hjv] at hj
    exact absurd hj (by simp)
  · have e : j = val.length + (j - val.length) := by omega
    have e2 : j + key.length = val.length + (j - val.length + key.length) := by omega
    rw [e, ← List.drop_drop, List.drop_left, List.drop_drop] at hj
    rw [e2, ← List.drop_drop, List.drop_left, List.drop_drop]
    have e3 : j0 + key.length + (j - val.length + key.length)
        = (j0 + key.length + (j - val.length)) + key.length := by omega
    rw [e3]
    exact hs _ hj

/-- Under `Safe`, the loop of `Name::deaccent` for one pair returns what the
left-to-right scan returns. -/
theorem deaccentLoop_eq_scan {key : Str} (val : Str) (hk : key ≠ []) :
    ∀ (fuel : Nat) (str : Str) (pos : Nat) (r : Str), pos ≤ str.length →
    Safe key val (str.drop pos) → deaccentLoop fuel key val str pos = some r →
    r = str.take pos ++ scanReplace key val 0 (str.drop pos) := by
  intro fuel
  induction fuel with
  | zero => intro str pos r _ _ h; simp [deaccentLoop] at h
  | succ fuel ih =>
    intro str pos r hpos hs h
    unfold deaccentLoop at h
    split at h
    · rename_i hfind
      simp only [Option.some.injEq] at h
      have hno : NoOcc key (str.drop pos) := by
        intro j
        rw [List.drop_drop]
        by_cases hj : pos + j ≤ str.length
        · exact find_none hpos hfind (pos + j) (by omega) hj
        · have e : str.drop (pos + j) = str.drop str.length := by
            rw [List.drop_length, List.drop_eq_nil_of_le (by omega)]
          rw [e]
          exact find_none hpos hfind str.length hpos (Nat.le_refl _)
      rw [scanReplace_id val hno, List.take_append_drop]
      exact h.symm
    · rename_i p hfind
      obtain ⟨h1, h2, h3, h4⟩ := find_some hfind
      have ep : p = pos + (p - pos) := by omega
      have hm : key.isPrefixOf ((str.drop pos).drop (p - pos)) = true := by
        rw [List.drop_drop, ← ep]; exact h3
      have erest : (str.drop pos).drop (p - pos + key.length) = str.drop (p + key.length) := by
        rw [List.drop_drop]
        congr 1
        omega
      have hsafe := safe_after_replace hs hm
      have hnr := hs _ hm
      rw [erest] at hsafe hnr
      have hlen : (str.take p).length = p := by
        rw [List.length_take]; omega
      have ed : (replaceAt str p key.length val).drop p = val ++ str.drop (p + key.length) := by
        unfold replaceAt
        rw [List.append_assoc, List.drop_left' hlen]
      have et : (replaceAt str p key.length val).take p = str.take p := by
        unfold replaceAt
        rw [List.append_assoc, List.take_left' hlen]
      have hp2 : p ≤ (replaceAt str p key.length val).length := by
        unfold replaceAt
        simp only [List.length_append, hlen]
        omega
      have hr := ih (replaceAt str p key.length val) p r hp2 (by rw [ed]; exact hsafe) h
      rw [hr, et, ed, scanReplace_val hnr]
      have hcopy := scanReplace_copy key val (p - pos) (str.drop pos)
        (by rw [List.length_drop]; omega)
        (fun j hj => by
          rw [List.drop_drop]
          exact h4 (pos + j) (by omega) (by omega))
      rw [hcopy, scanReplace_match val hk hm, List.drop_drop]
      have e6 : pos + (p - pos + key.length) = p + key.length := by omega
      have e7 : str.take p = str.take pos ++ (str.drop pos).take (p - pos) := by
        have := List.take_add str pos (p - pos)
        rw [← ep] at this
        exact this
      rw [e7, List.append_assoc]
      congr 3
      rw [List.drop_drop, e6]

theorem noOcc_of_find {str key : Str} (h : find str key 0 = none) : NoOcc key str := by
  intro j
  by_cases hj : j ≤ str.length
  · exact find_none (Nat.zero_le _) h j (Nat.zero_le _) hj
  · have e : str.drop j = str.drop str.length := by
      rw [List.drop_length, List.drop_eq_nil_of_le (by omega)]
    rw [e]
    exact find_none (Nat.zero_le _) h str.length (Nat.zero_le _) (Nat.le_refl _)

/-- A key that starts outside ASCII never begins inside an ASCII replacement. -/
theorem safe_of_headHigh {key val : Str} (hk : headHigh key = true)
    (hv : ∀ x ∈ val, x.val < 128) (t : Str) : Safe key val t := by
  intro j _ m hm
  cases key with
  | nil => simp [headHigh] at hk
  | cons a as =>
    simp only [headHigh, decide_eq_true_eq] at hk
    have hlen : 0 < (val.drop m).length := by rw [List.length_drop]; omega
    cases hd : val.drop m with
    | nil => rw [hd] at hlen; simp at hlen
    | cons c cs =>
      have hc : c ∈ val := List.mem_of_mem_drop (by rw [hd]; exact List.mem_cons_self _ _)
      have hc2 := hv c hc
      have hne : ¬ a = c := by
        intro e
        rw [e] at hk
        omega
      simp [List.isPrefixOf, hne]

theorem isPrefixOf_append_of {k t w : Str} (h1 : k.isPrefixOf w = true)
    (h2 : t.isPrefixOf (w.drop k.length) = true) : (k ++ t).isPrefixOf w = true := by
  have e1 := isPrefixOf_eq_append k w h1
  have e2 := isPrefixOf_eq_append t _ h2
  rw [e1, e2, ← List.append_assoc]
  exact isPrefixOf_append_self _ _

/-- A key `a :: as` replaced by `a` alone: the loop agrees with the scan where
no occurrence of the key is followed by `as` once more. -/
theorem safe_of_noOcc {a : Byte} {as t : Str} (h : NoOcc ((a :: as) ++ as) t) :
    Safe (a :: as) [a] t := by
  intro j hj m hm
  have e : m = 0 := by simpa using hm
  subst e
  apply Bool.eq_false_iff.2
  intro h2
  have h3 : as.isPrefixOf (t.drop (j + (a :: as).length)) = true := by
    simpa [List.isPrefixOf] using h2
  rw [← List.drop_drop] at h3
  have h4 := isPrefixOf_append_of hj h3
  rw [h j] at h4
  exact absurd h4 (by simp)

/-- A pattern that shares no byte with the replacement begins in the scanned
text only where it began before. -/
theorem isPrefixOf_of_scan {key val : Str} (hv : val ≠ []) : ∀ (pat l : Str),
    (∀ x ∈ pat, x ∉ val) → pat.isPrefixOf (scanReplace key val 0 l) = true →
    pat.isPrefixOf l = true := by
  intro pat
  induction pat with
  | nil => intro l _ _; cases l <;> rfl
  | cons b bs ih =>
    intro l hdis h
    cases l with
    | nil => simp [scanReplace] at h
    | cons c cs =>
      by_cases hm : key.isPrefixOf (c :: cs) = true
      · exfalso
        simp only [scanReplace, hm, if_true] at h
        cases val with
        | nil => exact hv rfl
        | cons v0 vs =>
          simp only [List.cons_append, List.isPrefixOf, Bool.and_eq_true, beq_iff_eq] at h
          exact hdis b (List.mem_cons_self _ _) (by rw [h.1]; exact List.mem_cons_self _ _)
      · have hm2 : key.isPrefixOf (c :: cs) = false := Bool.eq_false_iff.2 hm
        rw [scanReplace_step val hm2] at h
        simp only [List.isPrefixOf, Bool.and_eq_true, beq_iff_eq] at h ⊢
        exact ⟨h.1, ih cs (fun x hx => hdis x (List.mem_cons_of_mem _ hx)) h.2⟩

theorem noOcc_tail {pat : Str} {c : Byte} {cs : Str} (h : NoOcc pat (c :: cs)) :
    NoOcc pat cs := fun j => by simpa using h (j + 1)

theorem noOcc_drop {pat l : Str} (h : NoOcc pat l) (n : Nat) : NoOcc pat (l.drop n) :=
  fun j => by rw [List.drop_drop]; exact h (n + j)

/-- The scan of one pair creates no occurrence of a pattern that shares no
byte with the replacement. -/
theorem noOcc_scan {key val pat : Str} (hk : key ≠ []) (hv : val ≠ []) (hp : pat ≠ [])
    (hdis : ∀ x ∈ pat, x ∉ val) : ∀ (n : Nat) (l : Str), l.length ≤ n → NoOcc pat l →
    NoOcc pat (scanReplace key val 0 l) := by
  have hkl : 0 < key.length := List.length_pos.2 hk
  intro n
  induction n with
  | zero =>
    intro l hl h
    have e : l = [] := List.length_eq_zero.1 (by omega)
    subst e
    exact h
  | succ n ih =>
    intro l hl h
    cases l with
    | nil => exact h
    | cons c cs =>
      simp only [List.length_cons] at hl
      by_cases hm : key.isPrefixOf (c :: cs) = true
      · rw [scanReplace_match val hk hm]
        have hX := ih ((c :: cs).drop key.length)
          (by rw [List.length_drop, List.length_cons]; omega) (noOcc_drop h _)
        intro j
        by_cases hj : j < val.length
        · rw [List.drop_append_of_le_length (by omega)]
          have hlen : 0 < (val.drop j).length := by rw [List.length_drop]; omega
          cases hd : val.drop j with
          | nil => rw [hd] at hlen; simp at hlen
          | cons v0 vs =>
            have hv0 : v0 ∈ val :=
              List.mem_of_mem_drop (by rw [hd]; exact List.mem_cons_self _ _)
            cases pat with
            | nil => exact absurd rfl hp
            | cons b bs =>
              have hne : ¬ b = v0 := fun e => hdis b (List.mem_cons_self _ _) (e ▸ hv0)
              simp [List.isPrefixOf, hne]
        · have e : j = val.length + (j - val.length) := by omega
          rw [e, ← List.drop_drop, List.drop_left]
          exact hX _
      · have hm2 : key.isPrefixOf (c :: cs) = false := Bool.eq_false_iff.2 hm
        rw [scanReplace_step val hm2]
        have hX := ih cs (by omega) (noOcc_tail h)
        intro j
        cases j with
        | zero =>
          apply Bool.eq_false_iff.2
          intro h2
          rw [List.drop_zero, ← scanReplace_step val hm2] at h2
          have h3 := isPrefixOf_of_scan hv pat (c :: cs) hdis h2
          have h4 := h 0
          rw [List.drop_zero, h3] at h4
          exact absurd h4 (by simp)
        | succ j => simpa using hX j

/-- On pairs whose keys start outside ASCII and whose replacements are ASCII,
`Name::deaccent` returns what the scans applied in table order return. -/
theorem deaccentPairs_eq_scan : ∀ (table : List (Str × Str)),
    (∀ kv ∈ table, headHigh kv.1 = true ∧ countHigh kv.2 = 0) →
    ∀ (fuel : Nat) (str r : Str), deaccentPairs fuel table str = some r →
    r = scanPairs table str := by
  intro table
  induction table with
  | nil =>
    intro _ fuel str r h
    simp only [deaccentPairs, Option.some.injEq] at h
    exact h.symm
  | cons kv rest ih =>
    intro hall fuel str r h
    obtain ⟨key, val⟩ := kv
    have hkv := hall (key, val) (List.mem_cons_self _ _)
    have hk : key ≠ [] := by
      intro e
      rw [e] at hkv
      simp [headHigh] at hkv
    unfold deaccentPairs at h
    split at h
    · exact absurd h (by simp)
    · rename_i str2 h2
      have e := deaccentLoop_eq_scan val hk fuel str 0 str2 (Nat.zero_le _)
        (safe_of_headHigh hkv.1 (ascii_of_countHigh hkv.2) _) h2
      rw [List.take_zero, List.nil_append, List.drop_zero] at e
      rw [e] at h
      exact ih (fun kv hkv => hall kv (List.mem_cons_of_mem _ hkv)) fuel _ r h

/-- The table starts with the two keys made of `Z` or `z` and a combining
cedilla; every other key starts outside ASCII, and all replacements are ASCII. -/
theorem m_diacritic_split : ∃ rest : List (Str × Str),
    m_diacritic = ([0x5a, 0xcc, 0xa7], [0x5a]) :: ([0x7a, 0xcc, 0xa7], [0x7a]) :: rest ∧
      rest.all (fun kv => headHigh kv.1 && countHigh kv.2 == 0) = true :=
  ⟨diacriticOrdered.drop 2, by rw [m_diacritic_eq]; decide!, by decide!⟩

/-- Claim C18 as stated fails on the bytes `5a cc a7 cc a7` (`Z` and two
combining cedillas): `deaccent` returns `5a`, the scan that resumes after each
replacement returns `5a cc a7`. -/
theorem deaccent_rescans_replacement :
    deaccent 6 [0x5a, 0xcc, 0xa7, 0xcc, 0xa7] = some [0x5a] ∧
      deaccentSpec [0x5a, 0xcc, 0xa7, 0xcc, 0xa7] = [0x5a, 0xcc, 0xa7] :=
  ⟨by unfold deaccent; rw [m_diacritic_eq]; decide!,
    by unfold deaccentSpec; rw [m_diacritic_eq]; decide!⟩

/-- Claim C18, amended: for every byte string `s` in which neither `Z` nor `z`
is followed by two combining cedillas (the bytes `cc a7 cc a7`), `deaccent(s)`
is the result of applying the table pairs one after another in table order,
each pair replacing every non-overlapping occurrence of its key from left to
right and resuming right after the inserted replacement. -/
theorem deaccent_eq_spec (s : Str)
    (hZ : find s [0x5a, 0xcc, 0xa7, 0xcc, 0xa7] 0 = none)
    (hz : find s [0x7a, 0xcc, 0xa7, 0xcc, 0xa7] 0 = none) (k : Nat) :
    deaccent (s.length + 1 + k) s = some (deaccentSpec s) := by
  have hlen := countHigh_le_length s
  obtain ⟨r, hr, _⟩ := deaccentPairs_total m_diacritic m_diacritic_shape s
    (s.length + 1 + k) (by omega)
  have hd : deaccent (s.length + 1 + k) s = some r := hr
  rw [hd]
  refine congrArg some ?_
  unfold deaccentSpec
  obtain ⟨rest, hm, hrest⟩ := m_diacritic_split
  rw [hm] at hr ⊢
  have hZ2 : NoOcc (((0x5a : Byte) :: [0xcc, 0xa7]) ++ [0xcc, 0xa7]) s := noOcc_of_find hZ
  have hz2 : NoOcc (((0x7a : Byte) :: [0xcc, 0xa7]) ++ [0xcc, 0xa7]) s := noOcc_of_find hz
  unfold deaccentPairs at hr
  split at hr
  · exact absurd hr (by simp)
  · rename_i s1 h1
    have e1 := deaccentLoop_eq_scan [0x5a] (by simp) _ s 0 s1 (Nat.zero_le _)
      (safe_of_noOcc hZ2) h1
    rw [List.take_zero, List.nil_append, List.drop_zero] at e1
    have hz3 : NoOcc (((0x7a : Byte) :: [0xcc, 0xa7]) ++ [0xcc, 0xa7]) s1 := by
      rw [e1]
      exact noOcc_scan (by simp) (by simp) (by simp) (by simp) s.length s
        (Nat.le_refl _) hz2
    unfold deaccentPairs at hr
    split at hr
    · exact absurd hr (by simp)
    · rename_i s2 h2
      have e2 := deaccentLoop_eq_scan [0x7a] (by simp) _ s1 0 s2 (Nat.zero_le _)
        (safe_of_noOcc hz3) h2
      rw [List.take_zero, List.nil_append, List.drop_zero] at e2
      have e3 := deaccentPairs_eq_scan rest
        (fun kv hkv => by
          have := List.all_eq_true.1 hrest kv hkv
          simpa using this) _ s2 r hr
      rw [e3, e2, e1]
      rfl

/-- An instance of the amended claim C18: `Z` with one combining cedilla. -/
theorem deaccent_eq_spec_z_cedilla :
    find [0x5a, 0xcc, 0xa7] [0x5a, 0xcc, 0xa7, 0xcc, 0xa7] 0 = none ∧
      find [0x5a, 0xcc, 0xa7] [0x7a, 0xcc, 0xa7, 0xcc, 0xa7] 0 = none ∧
      deaccent 4 [0x5a, 0xcc, 0xa7] = some (deaccentSpec [0x5a, 0xcc, 0xa7]) :=
  ⟨by decide, by decide, deaccent_eq_spec [0x5a, 0xcc, 0xa7] (by decide) (by decide) 0⟩

end Name
